import Mathlib

/-! Verification of the webnative UCAN/DID core (src/did/transformers.ts):
the DID key codec, the UCAN token codec (build/encode/decode), the
validator (isValid, isExpired) and rootIssuer. The base64, base58 and
JSON wire encodings used by the token codec are not among the vendored
sources and are modelled from the specification (sections 4.1 and 6). -/

namespace Webnative

/-- Quote character (ASCII 34), kept as a named constant. -/
def qc : Char := Char.ofNat 34

/-- Backslash character (ASCII 92). -/
def bsl : Char := Char.ofNat 92

/-- Left curly brace (ASCII 123). -/
def lbr : Char := Char.ofNat 123

/-- Right curly brace (ASCII 125). -/
def rbr : Char := Char.ofNat 125

/-- Padding character of base64. -/
def eqc : Char := '='

/-- Match a literal character sequence at the head of the input, returning the rest. -/
def stripLit : List Char → List Char → Option (List Char)
  | [], r => some r
  | _ :: _, [] => none
  | c :: cs, x :: xs => if x = c then stripLit cs xs else none

theorem stripLit_append (l r : List Char) : stripLit l (l ++ r) = some r := by
  induction l with
  | nil => rfl
  | cons c cs ih => simpa [stripLit] using ih

/-- Split a character list on a separator character, the way the JavaScript
String.split behaves with a single-character separator. -/
def splitOnChar (sep : Char) : List Char → List (List Char)
  | [] => [[]]
  | x :: xs =>
    if x = sep then [] :: splitOnChar sep xs
    else
      match splitOnChar sep xs with
      | [] => [[x]]
      | h :: t => (x :: h) :: t

theorem splitOnChar_ne_nil (sep : Char) (l : List Char) : splitOnChar sep l ≠ [] := by
  induction l with
  | nil => simp [splitOnChar]
  | cons x xs ih =>
    by_cases h : x = sep
    · simp [splitOnChar, h]
    · simp only [splitOnChar, h, if_false]
      cases splitOnChar sep xs <;> simp

theorem splitOnChar_of_not_mem (sep : Char) (l : List Char) (h : sep ∉ l) :
    splitOnChar sep l = [l] := by
  induction l with
  | nil => rfl
  | cons x xs ih =>
    have hx : x ≠ sep := by intro hx; exact h (by simp [hx])
    have hxs : sep ∉ xs := by intro hm; exact h (by simp [hm])
    simp [splitOnChar, hx, ih hxs]

theorem splitOnChar_append (sep : Char) (a b : List Char) (h : sep ∉ a) :
    splitOnChar sep (a ++ sep :: b) = a :: splitOnChar sep b := by
  induction a with
  | nil => simp [splitOnChar]
  | cons x xs ih =>
    have hx : x ≠ sep := by intro hx; exact h (by simp [hx])
    have hxs : sep ∉ xs := by intro hm; exact h (by simp [hm])
    simp only [List.cons_append, splitOnChar, hx, if_false, List.append_eq, ih hxs]

/-- Remove all trailing occurrences of a character. -/
def stripTrailing (c : Char) : List Char → List Char
  | [] => []
  | x :: xs =>
    match stripTrailing c xs with
    | [] => if x = c then [] else [x]
    | r => x :: r

theorem stripTrailing_eq_self {c : Char} {l : List Char} (h : ∀ x ∈ l, x ≠ c) :
    stripTrailing c l = l := by
  induction l with
  | nil => rfl
  | cons x xs ih =>
    have hx : x ≠ c := h x (by simp)
    have hxs := ih (fun y hy => h y (by simp [hy]))
    rw [stripTrailing, hxs]
    cases xs with
    | nil => simp [hx]
    | cons y ys => rfl

theorem stripTrailing_append_left {c : Char} (a : List Char) {b : List Char}
    (h : stripTrailing c b ≠ []) :
    stripTrailing c (a ++ b) = a ++ stripTrailing c b := by
  induction a with
  | nil => rfl
  | cons x xs ih =>
    rw [List.cons_append, stripTrailing, ih]
    simp only [List.cons_append]
    have hne : xs ++ stripTrailing c b ≠ [] := by
      intro he
      rcases List.append_eq_nil.mp he with ⟨_, h2⟩
      exact h h2
    cases hx : xs ++ stripTrailing c b with
    | nil => exact absurd hx hne
    | cons y ys => rfl

/-- Little-endian digits of a natural number in base b, with explicit fuel so
that the definition is structurally recursive and kernel-reducible. -/
def toDigitsLE (b : Nat) : Nat → Nat → List Nat
  | 0, _ => []
  | f + 1, n => if n = 0 then [] else n % b :: toDigitsLE b f (n / b)

theorem toDigitsLE_eq_digits (b : Nat) (hb : 2 ≤ b) (f : Nat) :
    ∀ n ≤ f, toDigitsLE b f n = Nat.digits b n := by
  induction f with
  | zero =>
    intro n hn
    have : n = 0 := Nat.le_zero.mp hn
    simp [this, toDigitsLE]
  | succ f ih =>
    intro n hn
    by_cases h0 : n = 0
    · simp [h0, toDigitsLE]
    · have hpos : 0 < n := Nat.pos_of_ne_zero h0
      rw [toDigitsLE, if_neg h0, Nat.digits_def' (by omega : 1 < b) hpos]
      have hdiv : n / b ≤ f := by
        have := Nat.div_lt_self hpos (by omega : 1 < b)
        omega
      rw [ih (n / b) hdiv]

/-- Big-endian value of a digit list. -/
def beVal (b : Nat) (l : List Nat) : Nat := l.foldl (fun a d => a * b + d) 0

theorem beVal_foldl_acc (b : Nat) (l : List Nat) :
    ∀ acc, l.foldl (fun a d => a * b + d) acc = acc * b ^ l.length + beVal b l := by
  induction l with
  | nil => intro acc; simp [beVal]
  | cons x xs ih =>
    intro acc
    simp only [List.foldl_cons, List.length_cons, beVal]
    rw [ih (acc * b + x), ih (0 * b + x)]
    ring

theorem beVal_append_single (b : Nat) (l : List Nat) (d : Nat) :
    beVal b (l ++ [d]) = beVal b l * b + d := by
  unfold beVal
  rw [List.foldl_append]
  rfl

theorem beVal_reverse (b : Nat) (l : List Nat) :
    beVal b l.reverse = Nat.ofDigits b l := by
  induction l with
  | nil => simp [beVal, Nat.ofDigits_nil]
  | cons x xs ih =>
    rw [List.reverse_cons, beVal_append_single, ih, Nat.ofDigits_cons]
    ring

theorem beVal_reverse_digits (b : Nat) (hb : 2 ≤ b) (n : Nat) :
    beVal b ((Nat.digits b n).reverse) = n := by
  rw [beVal_reverse, Nat.ofDigits_digits]

theorem digits_beVal_of_be (b : Nat) (hb : 2 ≤ b) (l : List Nat)
    (hlt : ∀ d ∈ l, d < b) (hhd : ∀ x ∈ l.head?, x ≠ 0) :
    (Nat.digits b (beVal b l)).reverse = l := by
  have hval : beVal b l = Nat.ofDigits b l.reverse := by
    have := beVal_reverse b l.reverse
    simpa using this
  rw [hval, Nat.digits_ofDigits b (by omega : 1 < b) l.reverse
    (by intro d hd; exact hlt d (by simpa using hd))
    (by
      intro hne
      cases l with
      | nil => simp at hne
      | cons x xs =>
        have hx : x ≠ 0 := hhd x (by simp)
        have h1 : ((x :: xs).reverse).getLast? = some x := by
          rw [List.reverse_cons, List.getLast?_concat]
        have h2 := List.getLast?_eq_getLast _ hne
        rw [h2] at h1
        simp only [Option.some.injEq] at h1
        rw [h1]
        exact hx)]
  simp

/-- Standard base64 alphabet. -/
def alphaChars : List Char :=
  "ABCDEFGHIJKLMNOPQRSTUVWXYZabcdefghijklmnopqrstuvwxyz0123456789+/".data

/-- Character for a 6-bit value. -/
def alpha (d : Nat) : Char := alphaChars.getD d 'A'

/-- Index of a character in a character list. -/
def idxOf? (c : Char) : List Char → Option Nat
  | [] => none
  | x :: xs => if x = c then some 0 else (idxOf? c xs).map (· + 1)

/-- Index of a character in the base64 alphabet. -/
def alphaInv (c : Char) : Option Nat := idxOf? c alphaChars

theorem idxOf?_lt (c : Char) (l : List Char) :
    ∀ i, idxOf? c l = some i → i < l.length := by
  induction l with
  | nil => intro i h; simp [idxOf?] at h
  | cons x xs ih =>
    intro i h
    rw [idxOf?] at h
    by_cases hx : x = c
    · rw [if_pos hx] at h
      simp only [Option.some.injEq] at h
      subst h
      simp
    · rw [if_neg hx] at h
      simp only [Option.map_eq_some'] at h
      obtain ⟨j, hj, rfl⟩ := h
      have := ih j hj
      simp only [List.length_cons]
      omega

theorem alphaInv_lt (c : Char) (d : Nat) (h : alphaInv c = some d) : d < 64 := by
  have := idxOf?_lt c alphaChars d h
  simpa [alphaChars] using this

theorem alphaInv_alpha_fin : ∀ d : Fin 64, alphaInv (alpha d.val) = some d.val := by decide

theorem alphaInv_alpha {d : Nat} (h : d < 64) : alphaInv (alpha d) = some d :=
  alphaInv_alpha_fin ⟨d, h⟩

theorem alpha_mem (d : Nat) : alpha d ∈ alphaChars := by
  unfold alpha
  by_cases hd : d < alphaChars.length
  · rw [List.getD_eq_getElem _ _ hd]
    exact List.getElem_mem hd
  · rw [List.getD_eq_default _ _ (by omega)]
    decide

theorem alphaChars_ne_eqc : ∀ c ∈ alphaChars, c ≠ eqc := by decide

theorem alpha_ne_eqc (d : Nat) : alpha d ≠ eqc := alphaChars_ne_eqc _ (alpha_mem d)

/-- Base64 encoding without padding: 3-byte groups to 4 characters, with a 2-
or 3-character final group. Modelled from the spec: the base64 codec used by
the wire format is not among the vendored sources. -/
def b64e : List Nat → List Char
  | [] => []
  | [b1] => [alpha (b1 / 4), alpha (b1 % 4 * 16)]
  | [b1, b2] => [alpha (b1 / 4), alpha (b1 % 4 * 16 + b2 / 16), alpha (b2 % 16 * 4)]
  | b1 :: b2 :: b3 :: rest =>
    alpha (b1 / 4) :: alpha (b1 % 4 * 16 + b2 / 16) :: alpha (b2 % 16 * 4 + b3 / 64) ::
      alpha (b3 % 64) :: b64e rest

/-- Base64 encoding with padding characters (the base64pad representation).
Modelled from the spec, as b64e. -/
def b64eP : List Nat → List Char
  | [] => []
  | [b1] => [alpha (b1 / 4), alpha (b1 % 4 * 16), eqc, eqc]
  | [b1, b2] => [alpha (b1 / 4), alpha (b1 % 4 * 16 + b2 / 16), alpha (b2 % 16 * 4), eqc]
  | b1 :: b2 :: b3 :: rest =>
    alpha (b1 / 4) :: alpha (b1 % 4 * 16 + b2 / 16) :: alpha (b2 % 16 * 4 + b3 / 64) ::
      alpha (b3 % 64) :: b64eP rest

/-- Base64 group decoding of an unpadded character sequence. Modelled from the
spec: trailing groups of 2 or 3 characters carry 1 or 2 bytes, leftover bits
must be zero. -/
def b64d : List Char → Option (List Nat)
  | [] => some []
  | [_] => none
  | [c1, c2] =>
    (alphaInv c1).bind fun d1 =>
      (alphaInv c2).bind fun d2 =>
        if d2 % 16 = 0 then some [d1 * 4 + d2 / 16] else none
  | [c1, c2, c3] =>
    (alphaInv c1).bind fun d1 =>
      (alphaInv c2).bind fun d2 =>
        (alphaInv c3).bind fun d3 =>
          if d3 % 4 = 0 then some [d1 * 4 + d2 / 16, d2 % 16 * 16 + d3 / 4] else none
  | c1 :: c2 :: c3 :: c4 :: rest =>
    (alphaInv c1).bind fun d1 =>
      (alphaInv c2).bind fun d2 =>
        (alphaInv c3).bind fun d3 =>
          (alphaInv c4).bind fun d4 =>
            (b64d rest).map
              (fun bs => (d1 * 4 + d2 / 16) :: (d2 % 16 * 16 + d3 / 4) ::
                (d3 % 4 * 64 + d4) :: bs)

/-- Base64 decoding: strip trailing padding, then decode the groups. -/
def b64decode (l : List Char) : Option (List Nat) := b64d (stripTrailing eqc l)

theorem b64d_b64e (bs : List Nat) (h : ∀ x ∈ bs, x < 256) : b64d (b64e bs) = some bs := by
  induction bs using b64e.induct with
  | case1 => simp [b64e, b64d]
  | case2 b1 =>
    have h1 : b1 < 256 := h b1 (by simp)
    have e1 := @alphaInv_alpha (b1 / 4) (by omega)
    have e2 := @alphaInv_alpha (b1 % 4 * 16) (by omega)
    simp only [b64e, b64d, e1, e2, Option.some_bind]
    have hc : b1 % 4 * 16 % 16 = 0 := by omega
    rw [if_pos hc]
    have hb : b1 / 4 * 4 + b1 % 4 * 16 / 16 = b1 := by omega
    rw [hb]
  | case3 b1 b2 =>
    have h1 : b1 < 256 := h b1 (by simp)
    have h2 : b2 < 256 := h b2 (by simp)
    have e1 := @alphaInv_alpha (b1 / 4) (by omega)
    have e2 := @alphaInv_alpha (b1 % 4 * 16 + b2 / 16) (by omega)
    have e3 := @alphaInv_alpha (b2 % 16 * 4) (by omega)
    simp only [b64e, b64d, e1, e2, e3, Option.some_bind]
    have hc : b2 % 16 * 4 % 4 = 0 := by omega
    rw [if_pos hc]
    have hb1 : b1 / 4 * 4 + (b1 % 4 * 16 + b2 / 16) / 16 = b1 := by omega
    have hb2 : (b1 % 4 * 16 + b2 / 16) % 16 * 16 + b2 % 16 * 4 / 4 = b2 := by omega
    rw [hb1, hb2]
  | case4 b1 b2 b3 rest ih =>
    have h1 : b1 < 256 := h b1 (by simp)
    have h2 : b2 < 256 := h b2 (by simp)
    have h3 : b3 < 256 := h b3 (by simp)
    have hrest : ∀ x ∈ rest, x < 256 := fun x hx => h x (by simp [hx])
    have e1 := @alphaInv_alpha (b1 / 4) (by omega)
    have e2 := @alphaInv_alpha (b1 % 4 * 16 + b2 / 16) (by omega)
    have e3 := @alphaInv_alpha (b2 % 16 * 4 + b3 / 64) (by omega)
    have e4 := @alphaInv_alpha (b3 % 64) (by omega)
    simp only [b64e, b64d, e1, e2, e3, e4, Option.some_bind, ih hrest, Option.map_some']
    have hb1 : b1 / 4 * 4 + (b1 % 4 * 16 + b2 / 16) / 16 = b1 := by omega
    have hb2 : (b1 % 4 * 16 + b2 / 16) % 16 * 16 + (b2 % 16 * 4 + b3 / 64) / 4 = b2 := by
      omega
    have hb3 : (b2 % 16 * 4 + b3 / 64) % 4 * 64 + b3 % 64 = b3 := by omega
    rw [hb1, hb2, hb3]

theorem b64e_ne_nil_of_ne_nil (bs : List Nat) (h : bs ≠ []) : b64e bs ≠ [] := by
  cases bs with
  | nil => exact absurd rfl h
  | cons b1 rest =>
    cases rest with
    | nil => simp [b64e]
    | cons b2 rest2 =>
      cases rest2 <;> simp [b64e]

theorem mem_b64e (bs : List Nat) : ∀ c ∈ b64e bs, c ∈ alphaChars := by
  induction bs using b64e.induct with
  | case1 => intro c hc; simp [b64e] at hc
  | case2 b1 =>
    intro c hc
    simp only [b64e, List.mem_cons, List.not_mem_nil, or_false] at hc
    rcases hc with h | h <;> (subst h; exact alpha_mem _)
  | case3 b1 b2 =>
    intro c hc
    simp only [b64e, List.mem_cons, List.not_mem_nil, or_false] at hc
    rcases hc with h | h | h <;> (subst h; exact alpha_mem _)
  | case4 b1 b2 b3 rest ih =>
    intro c hc
    simp only [b64e, List.mem_cons] at hc
    rcases hc with h | h | h | h | h
    · subst h; exact alpha_mem _
    · subst h; exact alpha_mem _
    · subst h; exact alpha_mem _
    · subst h; exact alpha_mem _
    · exact ih c h

theorem stripTrailing_b64eP (bs : List Nat) :
    stripTrailing eqc (b64eP bs) = b64e bs := by
  induction bs using b64eP.induct with
  | case1 => rfl
  | case2 b1 =>
    show stripTrailing eqc [alpha (b1 / 4), alpha (b1 % 4 * 16), eqc, eqc] = _
    simp only [stripTrailing, if_pos rfl]
    rw [if_neg (alpha_ne_eqc _)]
    simp [b64e]
  | case3 b1 b2 =>
    show stripTrailing eqc
      [alpha (b1 / 4), alpha (b1 % 4 * 16 + b2 / 16), alpha (b2 % 16 * 4), eqc] = _
    simp only [stripTrailing, if_pos rfl]
    rw [if_neg (alpha_ne_eqc _)]
    simp [b64e]
  | case4 b1 b2 b3 rest ih =>
    by_cases hre : rest = []
    · subst hre
      show stripTrailing eqc [_, _, _, _] = _
      rw [stripTrailing_eq_self]
      · simp [b64e, b64eP]
      · intro x hx
        simp only [List.mem_cons, List.not_mem_nil, or_false] at hx
        rcases hx with h | h | h | h <;> (subst h; exact alpha_ne_eqc _)
    · show stripTrailing eqc
        ([alpha (b1 / 4), alpha (b1 % 4 * 16 + b2 / 16),
          alpha (b2 % 16 * 4 + b3 / 64), alpha (b3 % 64)] ++ b64eP rest) = _
      rw [stripTrailing_append_left _ (by
        rw [ih]
        exact b64e_ne_nil_of_ne_nil rest hre), ih]
      simp [b64e]

theorem b64decode_b64eP (bs : List Nat) (h : ∀ x ∈ bs, x < 256) :
    b64decode (b64eP bs) = some bs := by
  rw [b64decode, stripTrailing_b64eP, b64d_b64e bs h]

theorem b64d_lt (l : List Char) (bs : List Nat) (h : b64d l = some bs) :
    ∀ x ∈ bs, x < 256 := by
  induction l using b64d.induct generalizing bs with
  | case1 =>
    simp only [b64d, Option.some.injEq] at h
    subst h; simp
  | case2 c1 =>
    simp [b64d] at h
  | case3 c1 c2 =>
    rw [b64d, Option.bind_eq_some] at h
    obtain ⟨d1, h1, h⟩ := h
    rw [Option.bind_eq_some] at h
    obtain ⟨d2, h2, h⟩ := h
    have hd1 := alphaInv_lt c1 d1 h1
    have hd2 := alphaInv_lt c2 d2 h2
    by_cases hz : d2 % 16 = 0
    · rw [if_pos hz, Option.some.injEq] at h
      subst h
      intro x hx
      simp only [List.mem_singleton] at hx
      omega
    · rw [if_neg hz] at h; exact absurd h (by simp)
  | case4 c1 c2 c3 =>
    rw [b64d, Option.bind_eq_some] at h
    obtain ⟨d1, h1, h⟩ := h
    rw [Option.bind_eq_some] at h
    obtain ⟨d2, h2, h⟩ := h
    rw [Option.bind_eq_some] at h
    obtain ⟨d3, h3, h⟩ := h
    have hd1 := alphaInv_lt c1 d1 h1
    have hd2 := alphaInv_lt c2 d2 h2
    have hd3 := alphaInv_lt c3 d3 h3
    by_cases hz : d3 % 4 = 0
    · rw [if_pos hz, Option.some.injEq] at h
      subst h
      intro x hx
      simp only [List.mem_cons, List.not_mem_nil, or_false] at hx
      rcases hx with h | h <;> omega
    · rw [if_neg hz] at h; exact absurd h (by simp)
  | case5 c1 c2 c3 c4 rest ih =>
    rw [b64d, Option.bind_eq_some] at h
    obtain ⟨d1, h1, h⟩ := h
    rw [Option.bind_eq_some] at h
    obtain ⟨d2, h2, h⟩ := h
    rw [Option.bind_eq_some] at h
    obtain ⟨d3, h3, h⟩ := h
    rw [Option.bind_eq_some] at h
    obtain ⟨d4, h4, h⟩ := h
    rw [Option.map_eq_some'] at h
    obtain ⟨bs', hbs', rfl⟩ := h
    have hd1 := alphaInv_lt c1 d1 h1
    have hd2 := alphaInv_lt c2 d2 h2
    have hd3 := alphaInv_lt c3 d3 h3
    have hd4 := alphaInv_lt c4 d4 h4
    intro x hx
    simp only [List.mem_cons] at hx
    rcases hx with h | h | h | h
    · omega
    · omega
    · omega
    · exact ih bs' hbs' x h

theorem b64decode_lt (l : List Char) (bs : List Nat) (h : b64decode l = some bs) :
    ∀ x ∈ bs, x < 256 :=
  b64d_lt _ bs h

/-- The base58btc alphabet. -/
def alpha58Chars : List Char :=
  "123456789ABCDEFGHJKLMNPQRSTUVWXYZabcdefghijkmnopqrstuvwxyz".data

/-- Character for a base-58 digit. -/
def alpha58 (d : Nat) : Char := alpha58Chars.getD d '1'

/-- Index of a character in the base58 alphabet. -/
def alpha58Inv (c : Char) : Option Nat := idxOf? c alpha58Chars

theorem alpha58Inv_alpha58_fin : ∀ d : Fin 58, alpha58Inv (alpha58 d.val) = some d.val := by
  decide

theorem alpha58Inv_alpha58 {d : Nat} (h : d < 58) : alpha58Inv (alpha58 d) = some d :=
  alpha58Inv_alpha58_fin ⟨d, h⟩

theorem alpha58_ne_one_fin : ∀ d : Fin 58, d.val ≠ 0 → alpha58 d.val ≠ '1' := by decide

/-- Map the base58 inverse over a character list, failing on any character
outside the alphabet. -/
def map58Inv : List Char → Option (List Nat)
  | [] => some []
  | c :: cs => (alpha58Inv c).bind fun d => (map58Inv cs).map (d :: ·)

theorem map58Inv_append {l1 l2 : List Char} {r1 r2 : List Nat}
    (h1 : map58Inv l1 = some r1) (h2 : map58Inv l2 = some r2) :
    map58Inv (l1 ++ l2) = some (r1 ++ r2) := by
  induction l1 generalizing r1 with
  | nil =>
    simp only [map58Inv, Option.some.injEq] at h1
    subst h1
    simpa using h2
  | cons c cs ih =>
    rw [map58Inv, Option.bind_eq_some] at h1
    obtain ⟨d, hd, h1⟩ := h1
    rw [Option.map_eq_some'] at h1
    obtain ⟨r1', hr1', rfl⟩ := h1
    rw [List.cons_append, map58Inv, hd, Option.some_bind, ih hr1']
    rfl

theorem map58Inv_replicate_one (z : Nat) :
    map58Inv (List.replicate z '1') = some (List.replicate z 0) := by
  induction z with
  | zero => rfl
  | succ z ih =>
    rw [List.replicate_succ, map58Inv]
    have h1 : alpha58Inv '1' = some 0 := by decide
    rw [h1, Option.some_bind, ih]
    rfl

theorem map58Inv_map_alpha58 (ds : List Nat) (h : ∀ d ∈ ds, d < 58) :
    map58Inv (ds.map alpha58) = some ds := by
  induction ds with
  | nil => rfl
  | cons d ds ih =>
    rw [List.map_cons, map58Inv, alpha58Inv_alpha58 (h d (by simp)), Option.some_bind,
      ih (fun x hx => h x (by simp [hx]))]
    rfl

/-- Base58btc encoding of a byte sequence: one alphabet-zero character per
leading zero byte, then the big-endian base-58 digits of the value. Modelled
from the spec: the base58 codec of the identifier format (section 6) is not
among the vendored sources. -/
def encode58 (bs : List Nat) : List Char :=
  let zs := (bs.takeWhile (fun b => b == 0)).length
  let n := beVal 256 bs
  List.replicate zs '1' ++ (toDigitsLE 58 n n).reverse.map alpha58

/-- Base58btc decoding: every character must belong to the alphabet; leading
alphabet-zero characters become leading zero bytes. Modelled from the spec. -/
def decode58 (cs : List Char) : Option (List Nat) :=
  (map58Inv cs).map fun ds =>
    let zs := (cs.takeWhile (fun c => c == '1')).length
    let n := beVal 58 ds
    List.replicate zs 0 ++ (toDigitsLE 256 n n).reverse

theorem head?_dropWhile {α : Type} (p : α → Bool) (l : List α) :
    ∀ x ∈ (l.dropWhile p).head?, p x = false := by
  induction l with
  | nil => intro x hx; simp [List.dropWhile] at hx
  | cons y ys ih =>
    intro x hx
    rw [List.dropWhile] at hx
    cases hy : p y with
    | true =>
      rw [hy] at hx
      exact ih x hx
    | false =>
      rw [hy] at hx
      simp only [List.head?_cons, Option.mem_def, Option.some.injEq] at hx
      subst hx
      exact hy

theorem takeWhile_replicate_append {α : Type} {p : α → Bool} {c : α} (z : Nat)
    {l : List α} (hpc : p c = true) (hl : ∀ x ∈ l.head?, p x = false) :
    (List.replicate z c ++ l).takeWhile p = List.replicate z c := by
  induction z with
  | zero =>
    simp only [List.replicate_zero, List.nil_append]
    cases l with
    | nil => rfl
    | cons x xs =>
      have := hl x (by simp)
      simp [List.takeWhile, this]
  | succ z ih =>
    rw [List.replicate_succ, List.cons_append, List.takeWhile]
    simp only [hpc, List.replicate_succ]
    rw [ih]

theorem beVal_replicate_zero (b z : Nat) (l : List Nat) :
    beVal b (List.replicate z 0 ++ l) = beVal b l := by
  induction z with
  | zero => simp
  | succ z ih =>
    rw [List.replicate_succ, List.cons_append]
    unfold beVal at *
    simpa using ih

theorem digits58_rev_head_ne_one (n : Nat) :
    ∀ x ∈ ((Nat.digits 58 n).reverse.map alpha58).head?, (x == '1') = false := by
  intro x hx
  rcases hn0 : Nat.digits 58 n with _ | ⟨d0, ds⟩
  · rw [hn0] at hx
    simp at hx
  · rw [hn0] at hx
    have hne : (d0 :: ds) ≠ [] := by simp
    have hlast? := List.getLast?_eq_getLast (d0 :: ds) hne
    have hrev : ((d0 :: ds).reverse.map alpha58).head? =
        some (alpha58 ((d0 :: ds).getLast hne)) := by
      rw [List.head?_map, List.head?_reverse, hlast?]
      rfl
    rw [hrev] at hx
    simp only [Option.mem_def, Option.some.injEq] at hx
    subst hx
    have hlast_ne : (d0 :: ds).getLast hne ≠ 0 := by
      have hn_ne : n ≠ 0 := by
        intro h0
        rw [h0] at hn0
        simp at hn0
      have := Nat.getLast_digit_ne_zero 58 hn_ne
      simpa [hn0] using this
    have hlast_lt : (d0 :: ds).getLast hne < 58 := by
      apply Nat.digits_lt_base (by omega)
      rw [hn0]
      exact List.getLast_mem hne
    have := alpha58_ne_one_fin ⟨(d0 :: ds).getLast hne, hlast_lt⟩ hlast_ne
    simpa using this

theorem decode58_encode58 (bs : List Nat) (h : ∀ x ∈ bs, x < 256) :
    decode58 (encode58 bs) = some bs := by
  obtain ⟨z, rest, rfl, hhd, hlt⟩ :
      ∃ z rest, bs = List.replicate z 0 ++ rest ∧
        (∀ x ∈ rest.head?, (x == 0) = false) ∧ (∀ x ∈ rest, x < 256) := by
    refine ⟨(bs.takeWhile (fun b => b == 0)).length,
      bs.dropWhile (fun b => b == 0), ?_, ?_, ?_⟩
    · have hsplit0 :
          bs.takeWhile (fun b => b == 0) ++ bs.dropWhile (fun b => b == 0) = bs :=
        List.takeWhile_append_dropWhile _ _
      have htake : bs.takeWhile (fun b => b == 0) =
          List.replicate (bs.takeWhile (fun b => b == 0)).length 0 := by
        apply List.eq_replicate_of_mem
        intro x hx
        simpa using List.mem_takeWhile_imp hx
      conv_lhs => rw [← hsplit0]
      rw [← htake]
    · exact head?_dropWhile (fun b => b == 0) bs
    · intro x hx
      exact h x ((List.dropWhile_sublist _).mem hx)
  have hn : beVal 256 (List.replicate z 0 ++ rest) = beVal 256 rest :=
    beVal_replicate_zero 256 z rest
  have hzs : (List.replicate z 0 ++ rest).takeWhile (fun b => b == 0) =
      List.replicate z 0 :=
    takeWhile_replicate_append z (by decide) hhd
  have hdig : toDigitsLE 58 (beVal 256 rest) (beVal 256 rest) =
      Nat.digits 58 (beVal 256 rest) :=
    toDigitsLE_eq_digits 58 (by omega) _ _ (le_refl _)
  simp only [encode58, hzs, List.length_replicate, hn, hdig]
  have hdlt : ∀ d ∈ (Nat.digits 58 (beVal 256 rest)).reverse, d < 58 := fun d hd =>
    Nat.digits_lt_base (by omega) (List.mem_reverse.mp hd)
  simp only [decode58]
  rw [map58Inv_append (map58Inv_replicate_one z) (map58Inv_map_alpha58 _ hdlt)]
  simp only [Option.map_some', Option.some.injEq]
  rw [takeWhile_replicate_append z (by decide) (digits58_rev_head_ne_one _)]
  simp only [List.length_replicate]
  rw [beVal_replicate_zero, beVal_reverse_digits 58 (by omega)]
  rw [toDigitsLE_eq_digits 256 (by omega) _ _ (le_refl _)]
  rw [digits_beVal_of_be 256 (by omega) rest hlt
    (by
      intro x hx
      have := hhd x hx
      simpa using this)]

/-- Key algorithm tags supported by the DID codec (did/types.ts is not among
the vendored sources; modelled from the spec: a closed enumeration with at
minimum an edwards-curve tag and an RSA tag). -/
inductive KeyType where
  | ed25519
  | rsa
deriving DecidableEq, Repr

/-- Magic-byte table of the identifier encoding (did/util.ts is not among the
vendored sources; modelled from the spec: a fixed registry of distinct
algorithm-specific byte sequences). -/
def magicBytes : KeyType → List Nat
  | .ed25519 => [237, 1]
  | .rsa => [0, 245, 2]

/-- Method marker of the did:key encoding, including the base58btc multibase
letter (did/util.ts is not among the vendored sources; modelled from the
spec). -/
def didKeyMarker : String := "did:key:z"

/-- Match a literal byte sequence at the head of a byte buffer. -/
def stripLitN : List Nat → List Nat → Option (List Nat)
  | [], r => some r
  | _ :: _, [] => none
  | c :: cs, x :: xs => if x = c then stripLitN cs xs else none

theorem stripLitN_append (l r : List Nat) : stripLitN l (l ++ r) = some r := by
  induction l with
  | nil => rfl
  | cons c cs ih => simpa [stripLitN] using ih

/-- Match the registered magic-byte table against a prefixed key buffer
(did/util.ts parseMagicBytes is not among the vendored sources; modelled from
the spec: the leading bytes must match the unique registered tag). -/
def parseMagicBytes (buf : List Nat) : Option (List Nat × KeyType) :=
  match stripLitN (magicBytes .rsa) buf with
  | some rest => some (rest, .rsa)
  | none =>
    match stripLitN (magicBytes .ed25519) buf with
    | some rest => some (rest, .ed25519)
    | none => none

/-- Convert a base64 public key string to a did:key identifier
(src/did/transformers.ts publicKeyToDid); a failing base64 decode, which the
source surfaces as a thrown error, is modelled as none. -/
def publicKeyToDid (publicKey : String) (keyType : KeyType) : Option String :=
  (b64decode publicKey.data).map fun pubKeyBuf =>
    String.mk (didKeyMarker.data ++ encode58 (magicBytes keyType ++ pubKeyBuf))

/-- Convert a did:key identifier back to a base64pad public key string and its
key type (src/did/transformers.ts didToPublicKey); thrown errors are modelled
as none. -/
def didToPublicKey (did : String) : Option (String × KeyType) :=
  match stripLit didKeyMarker.data did.data with
  | none => none
  | some rest =>
    (decode58 rest).bind fun magicalBuf =>
      (parseMagicBytes magicalBuf).map fun p =>
        (String.mk (b64eP p.1), p.2)

theorem parseMagicBytes_magic (t : KeyType) (bs : List Nat) :
    parseMagicBytes (magicBytes t ++ bs) = some (bs, t) := by
  cases t with
  | rsa =>
    rw [parseMagicBytes, stripLitN_append]
  | ed25519 =>
    have h1 : stripLitN (magicBytes .rsa) (magicBytes .ed25519 ++ bs) = none := by
      simp [magicBytes, stripLitN]
    rw [parseMagicBytes, h1, stripLitN_append]

theorem magicBytes_lt (t : KeyType) : ∀ x ∈ magicBytes t, x < 256 := by
  cases t <;> simp [magicBytes]

theorem data_mk (l : List Char) : (String.mk l).data = l := rfl

theorem did_key_roundtrip (key : String) (bytes : List Nat) (t : KeyType)
    (hk : b64decode key.data = some bytes) :
    (publicKeyToDid key t).bind didToPublicKey = some (String.mk (b64eP bytes), t) := by
  have hlt : ∀ x ∈ bytes, x < 256 := b64decode_lt _ _ hk
  have hall : ∀ x ∈ magicBytes t ++ bytes, x < 256 := by
    intro x hx
    rcases List.mem_append.mp hx with h1 | h1
    · exact magicBytes_lt t x h1
    · exact hlt x h1
  simp only [publicKeyToDid, hk, Option.map_some', Option.some_bind, didToPublicKey,
    data_mk, stripLit_append, decode58_encode58 _ hall, Option.some_bind,
    parseMagicBytes_magic, Option.map_some']

example : (publicKeyToDid "AA" KeyType.ed25519).bind didToPublicKey =
    some ("AA==", KeyType.ed25519) := by decide

theorem char_ofNat_toNat (c : Char) : Char.ofNat c.toNat = c := by
  cases c with
  | mk val valid =>
    have hv : (Char.toNat ⟨val, valid⟩).isValidChar := valid
    rw [Char.ofNat, dif_pos hv]
    unfold Char.ofNatAux
    apply Char.eq_of_val_eq
    apply UInt32.eq_of_toBitVec_eq
    apply BitVec.eq_of_toNat_eq
    rfl

theorem mk_data (s : String) : String.mk s.data = s := rfl

/-- UCAN header (the shape assembled by build in src/did/transformers.ts). -/
structure UcanHeader where
  alg : String
  typ : String
  uav : String
deriving DecidableEq, Repr

/-- A resource descriptor (the Resource type of ucan/types.ts is not among the
vendored sources; modelled from the spec: the unrestricted wildcard string or
a structured value, here an opaque key-value record). -/
inductive Resource where
  | wildcard : Resource
  | structured : List (String × String) → Resource
deriving DecidableEq, Repr

/-- UCAN payload (the shape assembled by build in src/did/transformers.ts);
facts are modelled as opaque strings. -/
structure UcanPayload where
  aud : String
  exp : Int
  fct : List String
  iss : String
  nbf : Int
  prf : Option String
  ptc : String
  rsc : Resource
deriving DecidableEq, Repr

/-- A decoded UCAN: header, payload and optional signature. -/
structure Ucan where
  header : UcanHeader
  payload : UcanPayload
  signature : Option String
deriving DecidableEq, Repr

/-- URL-safe substitution on one character. -/
def sub (c : Char) : Char := if c = '+' then '-' else if c = '/' then '_' else c

/-- Inverse URL-safe substitution on one character. -/
def unsub (c : Char) : Char := if c = '-' then '+' else if c = '_' then '/' else c

/-- makeUrlSafe (common/base64.ts is not among the vendored sources; modelled
from the spec: substitute the +/ alphabet with -_ and strip the padding). -/
def makeUrlSafeL (l : List Char) : List Char := stripTrailing eqc (l.map sub)

/-- makeUrlUnsafe (common/base64.ts is not among the vendored sources;
modelled from the spec: restore the +/ alphabet). -/
def makeUrlUnsafeL (l : List Char) : List Char := l.map unsub

/-- String form of makeUrlUnsafe, as used by isValid on the signature. -/
def makeUrlUnsafe (s : String) : String := String.mk (makeUrlUnsafeL s.data)

/-- base64.urlEncode of a character string (common/base64.ts is not among the
vendored sources; modelled from the spec: base64 of the code units, then the
URL-safe substitution with padding stripped). -/
def urlEncodeL (l : List Char) : List Char := makeUrlSafeL (b64eP (l.map Char.toNat))

/-- base64.urlDecode of a character string; a decode failure, which the source
surfaces as a thrown error, is modelled as none. -/
def urlDecodeL (l : List Char) : Option (List Char) :=
  (b64decode (makeUrlUnsafeL l)).map (fun bs => bs.map Char.ofNat)

theorem sub_eq_eqc_iff (c : Char) : (sub c = eqc) ↔ (c = eqc) := by
  unfold sub
  by_cases h1 : c = '+'
  · subst h1
    rw [if_pos rfl]
    decide
  · rw [if_neg h1]
    by_cases h2 : c = '/'
    · subst h2
      rw [if_pos rfl]
      decide
    · rw [if_neg h2]

theorem unsub_sub_alpha : ∀ c ∈ alphaChars, unsub (sub c) = c := by decide

theorem stripTrailing_map_sub (l : List Char) :
    stripTrailing eqc (l.map sub) = (stripTrailing eqc l).map sub := by
  induction l with
  | nil => rfl
  | cons x xs ih =>
    rw [List.map_cons, stripTrailing, stripTrailing, ih]
    cases hx : stripTrailing eqc xs with
    | nil =>
      simp only [List.map_nil]
      by_cases hxe : x = eqc
      · rw [if_pos hxe, if_pos ((sub_eq_eqc_iff x).mpr hxe)]
        rfl
      · rw [if_neg hxe, if_neg (fun hc => hxe ((sub_eq_eqc_iff x).mp hc))]
        rfl
    | cons y ys => rfl

theorem urlDecodeL_urlEncodeL (l : List Char) (h : ∀ c ∈ l, c.toNat < 256) :
    urlDecodeL (urlEncodeL l) = some l := by
  have hbytes : ∀ x ∈ l.map Char.toNat, x < 256 := by
    intro x hx
    obtain ⟨c, hc, rfl⟩ := List.mem_map.mp hx
    exact h c hc
  rw [urlEncodeL, urlDecodeL, makeUrlSafeL, makeUrlUnsafeL, stripTrailing_map_sub,
    stripTrailing_b64eP, List.map_map]
  have hmapid : (b64e (l.map Char.toNat)).map (unsub ∘ sub) = b64e (l.map Char.toNat) := by
    apply List.map_congr_left ?_ |>.trans (List.map_id _)
    intro c hc
    exact unsub_sub_alpha c (mem_b64e _ c hc)
  rw [hmapid, b64decode, stripTrailing_eq_self
    (fun c hc => alphaChars_ne_eqc c (mem_b64e _ c hc)), b64d_b64e _ hbytes,
    Option.map_some', List.map_map]
  have : (fun c => Char.ofNat (Char.toNat c)) = fun c : Char => c := by
    funext c
    exact char_ofNat_toNat c
  simp only [Function.comp_def, char_ofNat_toNat, List.map_id']

/-- Decimal digit character. -/
def digitChar (d : Nat) : Char := Char.ofNat (48 + d)

/-- Value of a decimal digit character. -/
def digitVal (c : Char) : Nat := c.toNat - 48

/-- Decimal printing of a natural number, as JSON.stringify prints
JavaScript integers. -/
def printNat (n : Nat) : List Char :=
  if n = 0 then ['0'] else ((toDigitsLE 10 n n).reverse).map digitChar

/-- Decimal printing of an integer. -/
def printInt (i : Int) : List Char :=
  if i < 0 then '-' :: printNat ((-i).toNat) else printNat i.toNat

/-- Parse a nonempty run of decimal digits. -/
def parseNat (l : List Char) : Option (Nat × List Char) :=
  let ds := l.takeWhile (fun c => c.isDigit)
  if ds.isEmpty then none
  else some (beVal 10 (ds.map digitVal), l.dropWhile (fun c => c.isDigit))

/-- Parse a JSON integer: an optional minus sign and a digit run. -/
def parseInt : List Char → Option (Int × List Char)
  | [] => none
  | c :: rest =>
    if c = '-' then (parseNat rest).map (fun p => (-(p.1 : Int), p.2))
    else (parseNat (c :: rest)).map (fun p => ((p.1 : Int), p.2))

/-- JSON string literal of an escape-free string. Modelled from the spec: the
JSON codec of the wire format is not among the vendored sources, and is
modelled on strings whose characters need no JSON escaping. -/
def qstr (s : String) : List Char := qc :: s.data ++ [qc]

/-- JSON object key: a quoted name followed by a colon. -/
def jkey (k : String) : List Char := qc :: k.data ++ [qc, ':']

/-- Leading key of the payload object. -/
def audKey : List Char := lbr :: jkey "aud"

/-- Key of the expiry field, with the separating comma. -/
def expKey : List Char := ',' :: jkey "exp"

/-- Key of the facts field, with the separating comma. -/
def fctKey : List Char := ',' :: jkey "fct"

/-- Key of the issuer field, with the separating comma. -/
def issKey : List Char := ',' :: jkey "iss"

/-- Key of the not-before field, with the separating comma. -/
def nbfKey : List Char := ',' :: jkey "nbf"

/-- Key of the proof field, with the separating comma. -/
def prfKey : List Char := ',' :: jkey "prf"

/-- Key of the potency field, with the separating comma. -/
def ptcKey : List Char := ',' :: jkey "ptc"

/-- Key of the resource field, with the separating comma. -/
def rscKey : List Char := ',' :: jkey "rsc"

/-- Leading key of the header object. -/
def algKey : List Char := lbr :: jkey "alg"

/-- Key of the type field, with the separating comma. -/
def typKey : List Char := ',' :: jkey "typ"

/-- Key of the version field, with the separating comma. -/
def uavKey : List Char := ',' :: jkey "uav"

/-- Comma-separated JSON string items. -/
def printItems : List String → List Char
  | [] => []
  | [s] => qstr s
  | s :: rest => qstr s ++ ',' :: printItems rest

/-- JSON array of strings. -/
def printFacts (l : List String) : List Char := '[' :: printItems l ++ [']']

/-- Comma-separated JSON object entries. -/
def printKVItems : List (String × String) → List Char
  | [] => []
  | [p] => jkey p.1 ++ qstr p.2
  | p :: rest => jkey p.1 ++ qstr p.2 ++ ',' :: printKVItems rest

/-- JSON form of a resource descriptor. -/
def printRsc : Resource → List Char
  | .wildcard => qstr "*"
  | .structured kvs => lbr :: printKVItems kvs ++ [rbr]

/-- JSON form of the optional proof: a string or the null literal. -/
def printPrf : Option String → List Char
  | none => "null".data
  | some s => qstr s

/-- JSON text of a UCAN header, in the field order of the object literal
assembled by build. -/
def printHeader (h : UcanHeader) : List Char :=
  algKey ++ (qstr h.alg ++ (typKey ++ (qstr h.typ ++ (uavKey ++ (qstr h.uav ++ [rbr])))))

/-- JSON text of a UCAN payload, in the field order of the object literal
assembled by build. -/
def printPayload (p : UcanPayload) : List Char :=
  audKey ++ (qstr p.aud ++ (expKey ++ (printInt p.exp ++ (fctKey ++ (printFacts p.fct ++
    (issKey ++ (qstr p.iss ++ (nbfKey ++ (printInt p.nbf ++ (prfKey ++ (printPrf p.prf ++
    (ptcKey ++ (qstr p.ptc ++ (rscKey ++ (printRsc p.rsc ++ [rbr])))))))))))))))

/-- Parse a JSON string literal (escape-free model). -/
def parseQuoted : List Char → Option (String × List Char)
  | [] => none
  | c :: rest =>
    if c = qc then
      match rest.dropWhile (fun x => x != qc) with
      | x :: r =>
        if x = qc then some (String.mk (rest.takeWhile (fun x => x != qc)), r) else none
      | [] => none
    else none

/-- Parse the items of a nonempty JSON string array, up to and including the
closing bracket. -/
def parseItems : Nat → List Char → Option (List String × List Char)
  | 0, _ => none
  | fuel + 1, l =>
    (parseQuoted l).bind fun p =>
      match p.2 with
      | c :: r2 =>
        if c = ',' then (parseItems fuel r2).map (fun q => (p.1 :: q.1, q.2))
        else if c = ']' then some ([p.1], r2)
        else none
      | [] => none

/-- Parse a JSON array of strings. -/
def parseFacts : List Char → Option (List String × List Char)
  | [] => none
  | c :: rest =>
    if c = '[' then
      match rest with
      | c2 :: r2 => if c2 = ']' then some ([], r2) else parseItems rest.length rest
      | [] => none
    else none

/-- Parse the entries of a nonempty JSON string-to-string object, up to and
including the closing brace. -/
def parseKVItems : Nat → List Char → Option (List (String × String) × List Char)
  | 0, _ => none
  | fuel + 1, l =>
    (parseQuoted l).bind fun pk =>
      match pk.2 with
      | c :: r2 =>
        if c = ':' then
          (parseQuoted r2).bind fun pv =>
            match pv.2 with
            | c2 :: r3 =>
              if c2 = ',' then
                (parseKVItems fuel r3).map (fun q => ((pk.1, pv.1) :: q.1, q.2))
              else if c2 = rbr then some ([(pk.1, pv.1)], r3)
              else none
            | [] => none
        else none
      | [] => none

/-- Parse a resource descriptor: the wildcard string or a structured object. -/
def parseRsc : List Char → Option (Resource × List Char)
  | [] => none
  | c :: rest =>
    if c = qc then
      (parseQuoted (c :: rest)).bind fun p =>
        if p.1 = "*" then some (Resource.wildcard, p.2) else none
    else if c = lbr then
      match rest with
      | c2 :: r2 =>
        if c2 = rbr then some (Resource.structured [], r2)
        else (parseKVItems rest.length rest).map (fun q => (Resource.structured q.1, q.2))
      | [] => none
    else none

/-- Parse the optional proof: a string or the null literal. -/
def parsePrf : List Char → Option (Option String × List Char)
  | [] => none
  | c :: rest =>
    if c = qc then (parseQuoted (c :: rest)).map (fun p => (some p.1, p.2))
    else
      match stripLit ("null".data) (c :: rest) with
      | some r => some ((none : Option String), r)
      | none => none

/-- Parse the canonical JSON text of a UCAN header. -/
def parseHeaderAux (l : List Char) : Option (UcanHeader × List Char) :=
  (stripLit algKey l).bind fun r0 =>
    (parseQuoted r0).bind fun pa =>
      (stripLit typKey pa.2).bind fun r1 =>
        (parseQuoted r1).bind fun pt =>
          (stripLit uavKey pt.2).bind fun r2 =>
            (parseQuoted r2).bind fun pu =>
              (stripLit [rbr] pu.2).map fun r3 =>
                ({ alg := pa.1, typ := pt.1, uav := pu.1 }, r3)

/-- Parse a complete UCAN header JSON text. -/
def parseHeaderFull (l : List Char) : Option UcanHeader :=
  (parseHeaderAux l).bind fun p => if p.2 = [] then some p.1 else none

/-- Parse a quoted string field after its key. -/
def parseQKey (k : List Char) (l : List Char) : Option (String × List Char) :=
  (stripLit k l).bind parseQuoted

/-- Parse an integer field after its key. -/
def parseIKey (k : List Char) (l : List Char) : Option (Int × List Char) :=
  (stripLit k l).bind parseInt

/-- Parse a facts field after its key. -/
def parseFKey (k : List Char) (l : List Char) : Option (List String × List Char) :=
  (stripLit k l).bind parseFacts

/-- Parse a proof field after its key. -/
def parsePKey (k : List Char) (l : List Char) : Option (Option String × List Char) :=
  (stripLit k l).bind parsePrf

/-- Parse a resource field after its key. -/
def parseRKey (k : List Char) (l : List Char) : Option (Resource × List Char) :=
  (stripLit k l).bind parseRsc

/-- Parse the first four fields of a canonical payload text. -/
def parsePayloadFront (l : List Char) :
    Option ((String × Int × List String × String) × List Char) :=
  (parseQKey audKey l).bind fun pa =>
    (parseIKey expKey pa.2).bind fun pe =>
      (parseFKey fctKey pe.2).bind fun pf =>
        (parseQKey issKey pf.2).map fun pi =>
          ((pa.1, pe.1, pf.1, pi.1), pi.2)

/-- Parse the last four fields and the closing brace of a canonical payload
text. -/
def parsePayloadBack (l : List Char) :
    Option ((Int × Option String × String × Resource) × List Char) :=
  (parseIKey nbfKey l).bind fun pn =>
    (parsePKey prfKey pn.2).bind fun pp =>
      (parseQKey ptcKey pp.2).bind fun pt =>
        (parseRKey rscKey pt.2).bind fun pr =>
          (stripLit [rbr] pr.2).map fun r8 =>
            ((pn.1, pp.1, pt.1, pr.1), r8)

/-- Parse the canonical JSON text of a UCAN payload. -/
def parsePayloadAux (l : List Char) : Option (UcanPayload × List Char) :=
  (parsePayloadFront l).bind fun a =>
    (parsePayloadBack a.2).map fun b =>
      ({ aud := a.1.1, exp := a.1.2.1, fct := a.1.2.2.1, iss := a.1.2.2.2,
         nbf := b.1.1, prf := b.1.2.1, ptc := b.1.2.2.1, rsc := b.1.2.2.2 }, b.2)

/-- Parse a complete UCAN payload JSON text. -/
def parsePayloadFull (l : List Char) : Option UcanPayload :=
  (parsePayloadAux l).bind fun p => if p.2 = [] then some p.1 else none

/-- Characters the modelled JSON printer handles verbatim: printable Latin-1
without the quote and the backslash. -/
def jsonSafeChar (c : Char) : Bool :=
  decide (31 < c.toNat) && decide (c.toNat < 256) && c != qc && c != bsl

/-- Strings the modelled JSON printer handles verbatim. -/
def SafeStr (s : String) : Prop := ∀ c ∈ s.data, jsonSafeChar c = true

/-- Resources the modelled JSON printer handles verbatim. -/
def SafeRsc : Resource → Prop
  | .wildcard => True
  | .structured kvs => ∀ kv ∈ kvs, SafeStr kv.1 ∧ SafeStr kv.2

/-- Payloads the modelled JSON printer handles verbatim. -/
def SafePayload (p : UcanPayload) : Prop :=
  SafeStr p.aud ∧ SafeStr p.iss ∧ SafeStr p.ptc ∧ (∀ s ∈ p.fct, SafeStr s) ∧
    (∀ s ∈ p.prf, SafeStr s) ∧ SafeRsc p.rsc

/-- Headers the modelled JSON printer handles verbatim. -/
def SafeHeader (h : UcanHeader) : Prop :=
  SafeStr h.alg ∧ SafeStr h.typ ∧ SafeStr h.uav

instance (s : String) : Decidable (SafeStr s) :=
  inferInstanceAs (Decidable (∀ c ∈ s.data, jsonSafeChar c = true))

instance (o : Option String) : Decidable (∀ s ∈ o, SafeStr s) :=
  match o with
  | none => .isTrue (by simp)
  | some s => decidable_of_iff (SafeStr s) (by simp)

instance : (r : Resource) → Decidable (SafeRsc r)
  | .wildcard => .isTrue trivial
  | .structured kvs =>
    (inferInstance : Decidable (∀ kv ∈ kvs, SafeStr kv.1 ∧ SafeStr kv.2))

instance (p : UcanPayload) : Decidable (SafePayload p) :=
  inferInstanceAs (Decidable (SafeStr p.aud ∧ SafeStr p.iss ∧ SafeStr p.ptc ∧
    (∀ s ∈ p.fct, SafeStr s) ∧ (∀ s ∈ p.prf, SafeStr s) ∧ SafeRsc p.rsc))

instance (h : UcanHeader) : Decidable (SafeHeader h) :=
  inferInstanceAs (Decidable (SafeStr h.alg ∧ SafeStr h.typ ∧ SafeStr h.uav))

theorem safe_ne_qc {c : Char} (h : jsonSafeChar c = true) : (c != qc) = true := by
  simp only [jsonSafeChar, Bool.and_eq_true] at h
  exact h.1.2

theorem safe_toNat_lt {c : Char} (h : jsonSafeChar c = true) : c.toNat < 256 := by
  simp only [jsonSafeChar, Bool.and_eq_true, decide_eq_true_eq] at h
  exact h.1.1.2

theorem takeWhile_all_append {α : Type} (p : α → Bool) (a r : List α)
    (ha : ∀ x ∈ a, p x = true) (hr : ∀ x ∈ r.head?, p x = false) :
    (a ++ r).takeWhile p = a ∧ (a ++ r).dropWhile p = r := by
  induction a with
  | nil =>
    simp only [List.nil_append]
    cases r with
    | nil => exact ⟨rfl, rfl⟩
    | cons x xs =>
      have hx := hr x (by simp)
      rw [List.takeWhile, List.dropWhile, hx]
      exact ⟨rfl, rfl⟩
  | cons y ys ih =>
    have hy := ha y (by simp)
    obtain ⟨h1, h2⟩ := ih (fun x hx => ha x (by simp [hx]))
    rw [List.cons_append, List.takeWhile, List.dropWhile, hy, h1, h2]
    exact ⟨rfl, rfl⟩

theorem parseQuoted_rt (s : String) (hs : SafeStr s) (r : List Char) :
    parseQuoted (qstr s ++ r) = some (s, r) := by
  obtain ⟨ht, hd⟩ := takeWhile_all_append (fun x => x != qc) s.data (qc :: r)
    (fun x hx => safe_ne_qc (hs x hx))
    (by
      intro x hx
      simp only [List.head?_cons, Option.mem_def, Option.some.injEq] at hx
      subst hx
      simp)
  have hshape : qstr s ++ r = qc :: (s.data ++ qc :: r) := by simp [qstr]
  rw [hshape, parseQuoted]
  rw [if_pos rfl, hd, ht]
  simp [mk_data]

theorem digit_facts : ∀ d : Fin 10, (digitChar d.val).isDigit = true ∧
    digitVal (digitChar d.val) = d.val ∧ digitChar d.val ≠ '-' ∧
    (digitChar d.val).toNat < 256 := by decide

theorem printNat_ne_nil (n : Nat) : printNat n ≠ [] := by
  rw [printNat]
  by_cases h0 : n = 0
  · simp [h0]
  · rw [if_neg h0, toDigitsLE_eq_digits 10 (by omega) n n (le_refl n)]
    intro hc
    rw [List.map_eq_nil_iff, List.reverse_eq_nil_iff] at hc
    exact absurd hc (Nat.digits_ne_nil_iff_ne_zero.mpr h0)

theorem printNat_all_digit (n : Nat) :
    ∀ c ∈ printNat n, c.isDigit = true ∧ c ≠ '-' ∧ c.toNat < 256 := by
  intro c hc
  rw [printNat] at hc
  by_cases h0 : n = 0
  · rw [if_pos h0] at hc
    simp only [List.mem_singleton] at hc
    subst hc
    refine ⟨by decide, by decide, by decide⟩
  · rw [if_neg h0, toDigitsLE_eq_digits 10 (by omega) n n (le_refl n)] at hc
    obtain ⟨d, hd, rfl⟩ := List.mem_map.mp hc
    have hdlt : d < 10 := Nat.digits_lt_base (by omega) (List.mem_reverse.mp hd)
    have hf := digit_facts ⟨d, hdlt⟩
    exact ⟨hf.1, hf.2.2.1, hf.2.2.2⟩

theorem beVal_digitVal_printNat (n : Nat) :
    beVal 10 ((printNat n).map digitVal) = n := by
  rw [printNat]
  by_cases h0 : n = 0
  · rw [if_pos h0]
    subst h0
    decide
  · rw [if_neg h0, toDigitsLE_eq_digits 10 (by omega) n n (le_refl n), List.map_map]
    have hcongr : ∀ d ∈ (Nat.digits 10 n).reverse, (digitVal ∘ digitChar) d = d := by
      intro d hd
      have hdlt : d < 10 := Nat.digits_lt_base (by omega) (List.mem_reverse.mp hd)
      exact (digit_facts ⟨d, hdlt⟩).2.1
    rw [List.map_congr_left hcongr, List.map_id', beVal_reverse_digits 10 (by omega)]

theorem parseNat_rt (n : Nat) (r : List Char) (hr : ∀ c ∈ r.head?, c.isDigit = false) :
    parseNat (printNat n ++ r) = some (n, r) := by
  obtain ⟨ht, hd⟩ := takeWhile_all_append (fun c => c.isDigit) (printNat n) r
    (fun c hc => (printNat_all_digit n c hc).1) hr
  simp only [parseNat, ht, hd]
  rw [if_neg (by simp [List.isEmpty_iff, printNat_ne_nil n])]
  rw [beVal_digitVal_printNat]

theorem parseInt_rt (i : Int) (r : List Char) (hr : r.head? = some ',') :
    parseInt (printInt i ++ r) = some (i, r) := by
  have hrd : ∀ c ∈ r.head?, c.isDigit = false := by
    intro c hc
    rw [hr] at hc
    simp only [Option.mem_def, Option.some.injEq] at hc
    subst hc
    decide
  rw [printInt]
  by_cases hi : i < 0
  · rw [if_pos hi, List.cons_append, parseInt]
    rw [if_pos rfl, parseNat_rt _ _ hrd, Option.map_some']
    have hcast : -((((-i).toNat : Nat) : Int)) = i := by omega
    rw [hcast]
  · rw [if_neg hi]
    obtain ⟨c0, tl, hp⟩ : ∃ c0 tl, printNat i.toNat = c0 :: tl := by
      cases hpn : printNat i.toNat with
      | nil => exact absurd hpn (printNat_ne_nil _)
      | cons a b => exact ⟨a, b, rfl⟩
    rw [hp, List.cons_append, parseInt]
    have hc0 : c0 ≠ '-' := (printNat_all_digit _ c0 (by rw [hp]; simp)).2.1
    rw [if_neg hc0, ← List.cons_append, ← hp, parseNat_rt _ _ hrd, Option.map_some']
    have hcast : (((i.toNat : Nat) : Int)) = i := by omega
    rw [hcast]

theorem printItems_cons_head (s : String) (ss : List String) :
    ∃ tl, printItems (s :: ss) = qc :: tl := by
  cases ss with
  | nil => exact ⟨_, rfl⟩
  | cons s2 ss2 => exact ⟨_, rfl⟩

theorem printItems_length_le (ss : List String) :
    ss.length ≤ (printItems ss).length := by
  induction ss with
  | nil => simp [printItems]
  | cons s ss' ih =>
    cases ss' with
    | nil => simp [printItems, qstr]
    | cons s2 ss2 =>
      rw [show printItems (s :: s2 :: ss2) = qstr s ++ ',' :: printItems (s2 :: ss2)
        from rfl]
      simp only [List.length_append, List.length_cons, qstr] at *
      omega

theorem parseItems_rt (ss : List String) (hne : ss ≠ []) (hs : ∀ s ∈ ss, SafeStr s) :
    ∀ fuel, ss.length ≤ fuel → ∀ r,
      parseItems fuel (printItems ss ++ ']' :: r) = some (ss, r) := by
  induction ss with
  | nil => exact absurd rfl hne
  | cons s ss' ih =>
    intro fuel hfuel r
    cases fuel with
    | zero => simp at hfuel
    | succ f =>
      cases ss' with
      | nil =>
        rw [show printItems [s] = qstr s from rfl]
        have h1 : ¬((']' : Char) = ',') := by decide
        simp only [parseItems, parseQuoted_rt s (hs s (by simp)) (']' :: r),
          Option.some_bind, if_neg h1, if_pos rfl, if_true]
      | cons s2 ss'' =>
        rw [show printItems (s :: s2 :: ss'') = qstr s ++ ',' :: printItems (s2 :: ss'')
          from rfl]
        simp only [List.append_assoc, List.cons_append]
        simp only [parseItems, parseQuoted_rt s (hs s (by simp)), Option.some_bind,
          if_pos rfl]
        rw [ih (by simp) (fun x hx => hs x (by simp [hx])) f
          (by simp only [List.length_cons] at hfuel ⊢; omega) r]
        rfl

theorem parseFacts_rt (ss : List String) (hs : ∀ s ∈ ss, SafeStr s) (r : List Char) :
    parseFacts (printFacts ss ++ r) = some (ss, r) := by
  cases ss with
  | nil => simp [printFacts, printItems, parseFacts]
  | cons s ss' =>
    have hshape : printFacts (s :: ss') ++ r =
        '[' :: (printItems (s :: ss') ++ ']' :: r) := by
      simp [printFacts]
    rw [hshape]
    obtain ⟨tl, htl⟩ := printItems_cons_head s ss'
    have h2 : ¬(qc = ']') := by decide
    rw [htl]
    simp only [List.cons_append, parseFacts, if_pos rfl, if_neg h2]
    rw [← List.cons_append, ← htl]
    refine parseItems_rt (s :: ss') (by simp) hs _ ?_ r
    have hle := printItems_length_le (s :: ss')
    simp only [List.length_append, List.length_cons] at hle ⊢
    omega

theorem jkey_shape (k : String) (X : List Char) : jkey k ++ X = qstr k ++ ':' :: X := by
  simp [jkey, qstr]

theorem printKVItems_cons_head (kv : String × String) (ps : List (String × String)) :
    ∃ tl, printKVItems (kv :: ps) = qc :: tl := by
  cases ps with
  | nil => exact ⟨_, rfl⟩
  | cons kv2 ps2 => exact ⟨_, rfl⟩

theorem printKVItems_length_le (ps : List (String × String)) :
    ps.length ≤ (printKVItems ps).length := by
  induction ps with
  | nil => simp [printKVItems]
  | cons kv ps' ih =>
    cases ps' with
    | nil => simp [printKVItems, jkey, qstr]
    | cons kv2 ps2 =>
      rw [show printKVItems (kv :: kv2 :: ps2) =
        jkey kv.1 ++ qstr kv.2 ++ ',' :: printKVItems (kv2 :: ps2) from rfl]
      simp only [List.length_append, List.length_cons, jkey, qstr] at *
      omega

theorem parseKVItems_rt (ps : List (String × String)) (hne : ps ≠ [])
    (hs : ∀ kv ∈ ps, SafeStr kv.1 ∧ SafeStr kv.2) :
    ∀ fuel, ps.length ≤ fuel → ∀ r,
      parseKVItems fuel (printKVItems ps ++ rbr :: r) = some (ps, r) := by
  induction ps with
  | nil => exact absurd rfl hne
  | cons kv ps' ih =>
    intro fuel hfuel r
    cases fuel with
    | zero => simp at hfuel
    | succ f =>
      cases ps' with
      | nil =>
        rw [show printKVItems [kv] = jkey kv.1 ++ qstr kv.2 from rfl]
        rw [List.append_assoc, jkey_shape]
        have h1 : ¬(rbr = ',') := by decide
        simp only [List.append_assoc, List.cons_append, parseKVItems,
          parseQuoted_rt kv.1 (hs kv (by simp)).1, Option.some_bind, if_pos rfl,
          parseQuoted_rt kv.2 (hs kv (by simp)).2 (rbr :: r), if_neg h1, if_true]
      | cons kv2 ps2 =>
        rw [show printKVItems (kv :: kv2 :: ps2) =
          jkey kv.1 ++ qstr kv.2 ++ ',' :: printKVItems (kv2 :: ps2) from rfl]
        rw [List.append_assoc, List.append_assoc, jkey_shape]
        simp only [List.append_assoc, List.cons_append, parseKVItems,
          parseQuoted_rt kv.1 (hs kv (by simp)).1, Option.some_bind, if_pos rfl,
          if_true, parseQuoted_rt kv.2 (hs kv (by simp)).2]
        rw [ih (by simp) (fun x hx => hs x (by simp [hx])) f
          (by simp only [List.length_cons] at hfuel ⊢; omega) r]
        rfl

theorem parseRsc_rt (rsc : Resource) (hs : SafeRsc rsc) (r : List Char) :
    parseRsc (printRsc rsc ++ r) = some (rsc, r) := by
  cases rsc with
  | wildcard =>
    have hshape : printRsc Resource.wildcard ++ r = qc :: ("*".data ++ qc :: r) := by
      simp [printRsc, qstr]
    have hq : qc :: ("*".data ++ qc :: r) = qstr "*" ++ r := by simp [qstr]
    rw [hshape]
    simp only [parseRsc, if_pos rfl, if_true, hq,
      parseQuoted_rt "*" (by decide) r, Option.some_bind]
  | structured kvs =>
    cases kvs with
    | nil =>
      have hshape : printRsc (Resource.structured []) ++ r = lbr :: rbr :: r := by
        simp [printRsc, printKVItems]
      have h1 : ¬(lbr = qc) := by decide
      rw [hshape]
      simp only [parseRsc, if_neg h1, if_pos rfl, if_true]
    | cons kv kvs' =>
      have hshape : printRsc (Resource.structured (kv :: kvs')) ++ r =
          lbr :: (printKVItems (kv :: kvs') ++ rbr :: r) := by
        simp [printRsc]
      have h1 : ¬(lbr = qc) := by decide
      have h2 : ¬(qc = rbr) := by decide
      obtain ⟨tl, htl⟩ := printKVItems_cons_head kv kvs'
      rw [hshape, htl]
      simp only [List.cons_append, parseRsc, if_neg h1, if_pos rfl, if_true, if_neg h2]
      rw [← List.cons_append, ← htl]
      rw [parseKVItems_rt (kv :: kvs') (by simp) hs _
        (by
          have hle := printKVItems_length_le (kv :: kvs')
          simp only [List.length_append, List.length_cons] at hle ⊢
          omega) r]
      rfl

theorem parsePrf_rt (o : Option String) (ho : ∀ s ∈ o, SafeStr s) (r : List Char) :
    parsePrf (printPrf o ++ r) = some (o, r) := by
  cases o with
  | none =>
    have hshape : printPrf none ++ r = 'n' :: ("ull".data ++ r) := rfl
    have h1 : ¬(('n' : Char) = qc) := by decide
    have h2 : ('n' :: ("ull".data ++ r)) = "null".data ++ r := rfl
    rw [hshape]
    simp only [parsePrf, if_neg h1, h2, stripLit_append]
  | some s =>
    have hshape : printPrf (some s) ++ r = qc :: (s.data ++ qc :: r) := by
      simp [printPrf, qstr]
    have hq : qc :: (s.data ++ qc :: r) = qstr s ++ r := by simp [qstr]
    rw [hshape]
    simp only [parsePrf, if_pos rfl, if_true, hq, parseQuoted_rt s (ho s rfl) r,
      Option.map_some']

theorem parseHeaderAux_rt (h : UcanHeader) (hs : SafeHeader h) (r : List Char) :
    parseHeaderAux (printHeader h ++ r) = some (h, r) := by
  obtain ⟨h1, h2, h3⟩ := hs
  simp only [printHeader, List.append_assoc]
  simp only [parseHeaderAux, stripLit_append, Option.some_bind,
    parseQuoted_rt h.alg h1, parseQuoted_rt h.typ h2, parseQuoted_rt h.uav h3,
    Option.map_some']

theorem parseQKey_rt (k : List Char) (s : String) (hs : SafeStr s) (X : List Char) :
    parseQKey k (k ++ (qstr s ++ X)) = some (s, X) := by
  rw [parseQKey, stripLit_append, Option.some_bind, parseQuoted_rt s hs X]

theorem parseIKey_rt (k : List Char) (i : Int) (X : List Char)
    (hX : X.head? = some ',') : parseIKey k (k ++ (printInt i ++ X)) = some (i, X) := by
  rw [parseIKey, stripLit_append, Option.some_bind, parseInt_rt i X hX]

theorem parseFKey_rt (k : List Char) (ss : List String) (hs : ∀ s ∈ ss, SafeStr s)
    (X : List Char) : parseFKey k (k ++ (printFacts ss ++ X)) = some (ss, X) := by
  rw [parseFKey, stripLit_append, Option.some_bind, parseFacts_rt ss hs X]

theorem parsePKey_rt (k : List Char) (o : Option String) (ho : ∀ s ∈ o, SafeStr s)
    (X : List Char) : parsePKey k (k ++ (printPrf o ++ X)) = some (o, X) := by
  rw [parsePKey, stripLit_append, Option.some_bind, parsePrf_rt o ho X]

theorem parseRKey_rt (k : List Char) (rsc : Resource) (hs : SafeRsc rsc)
    (X : List Char) : parseRKey k (k ++ (printRsc rsc ++ X)) = some (rsc, X) := by
  rw [parseRKey, stripLit_append, Option.some_bind, parseRsc_rt rsc hs X]

theorem parsePayloadFront_rt (p : UcanPayload) (h1 : SafeStr p.aud)
    (h4 : ∀ s ∈ p.fct, SafeStr s) (h2 : SafeStr p.iss) (X : List Char) :
    parsePayloadFront (audKey ++ (qstr p.aud ++ (expKey ++ (printInt p.exp ++
      (fctKey ++ (printFacts p.fct ++ (issKey ++ (qstr p.iss ++ X)))))))) =
      some ((p.aud, p.exp, p.fct, p.iss), X) := by
  have hI : ∀ Y, parseIKey expKey (expKey ++ (printInt p.exp ++ (fctKey ++ Y))) =
      some (p.exp, fctKey ++ Y) := fun Y => parseIKey_rt _ _ _ rfl
  simp only [parsePayloadFront, parseQKey_rt audKey p.aud h1, Option.some_bind, hI,
    parseFKey_rt fctKey p.fct h4, parseQKey_rt issKey p.iss h2, Option.map_some']

theorem parsePayloadBack_rt (p : UcanPayload) (h5 : ∀ s ∈ p.prf, SafeStr s)
    (h3 : SafeStr p.ptc) (h6 : SafeRsc p.rsc) (r : List Char) :
    parsePayloadBack (nbfKey ++ (printInt p.nbf ++ (prfKey ++ (printPrf p.prf ++
      (ptcKey ++ (qstr p.ptc ++ (rscKey ++ (printRsc p.rsc ++ ([rbr] ++ r))))))))) =
      some ((p.nbf, p.prf, p.ptc, p.rsc), r) := by
  have hI : ∀ Y, parseIKey nbfKey (nbfKey ++ (printInt p.nbf ++ (prfKey ++ Y))) =
      some (p.nbf, prfKey ++ Y) := fun Y => parseIKey_rt _ _ _ rfl
  simp only [parsePayloadBack, hI, Option.some_bind,
    parsePKey_rt prfKey p.prf h5, parseQKey_rt ptcKey p.ptc h3,
    parseRKey_rt rscKey p.rsc h6, stripLit_append, Option.map_some']

theorem parsePayloadAux_rt (p : UcanPayload) (hp : SafePayload p) (r : List Char) :
    parsePayloadAux (printPayload p ++ r) = some (p, r) := by
  obtain ⟨h1, h2, h3, h4, h5, h6⟩ := hp
  simp only [printPayload, List.append_assoc]
  rw [parsePayloadAux, parsePayloadFront_rt p h1 h4 h2, Option.some_bind,
    parsePayloadBack_rt p h5 h3 h6, Option.map_some']

theorem parseHeaderFull_rt (h : UcanHeader) (hs : SafeHeader h) :
    parseHeaderFull (printHeader h) = some h := by
  rw [parseHeaderFull,
    show printHeader h = printHeader h ++ [] from (List.append_nil _).symm,
    parseHeaderAux_rt h hs []]
  rfl

theorem parsePayloadFull_rt (p : UcanPayload) (hp : SafePayload p) :
    parsePayloadFull (printPayload p) = some p := by
  rw [parsePayloadFull,
    show printPayload p = printPayload p ++ [] from (List.append_nil _).symm,
    parsePayloadAux_rt p hp []]
  rfl

theorem qstr_lt256 (s : String) (hs : SafeStr s) : ∀ c ∈ qstr s, c.toNat < 256 := by
  intro c hc
  simp only [qstr, List.mem_cons, List.mem_append, List.mem_singleton,
    List.mem_nil_iff, or_false] at hc
  rcases hc with (h | h) | h
  · subst h; decide
  · exact safe_toNat_lt (hs c h)
  · subst h; decide

theorem printInt_lt256 (i : Int) : ∀ c ∈ printInt i, c.toNat < 256 := by
  intro c hc
  rw [printInt] at hc
  by_cases hi : i < 0
  · rw [if_pos hi] at hc
    simp only [List.mem_cons] at hc
    rcases hc with h | h
    · subst h; decide
    · exact (printNat_all_digit _ c h).2.2
  · rw [if_neg hi] at hc
    exact (printNat_all_digit _ c hc).2.2

theorem printItems_lt256 (ss : List String) (hs : ∀ s ∈ ss, SafeStr s) :
    ∀ c ∈ printItems ss, c.toNat < 256 := by
  induction ss with
  | nil => intro c hc; simp [printItems] at hc
  | cons s ss' ih =>
    intro c hc
    cases ss' with
    | nil =>
      rw [show printItems [s] = qstr s from rfl] at hc
      exact qstr_lt256 s (hs s (by simp)) c hc
    | cons s2 ss2 =>
      rw [show printItems (s :: s2 :: ss2) = qstr s ++ ',' :: printItems (s2 :: ss2)
        from rfl] at hc
      simp only [List.mem_append, List.mem_cons] at hc
      rcases hc with h | h | h
      · exact qstr_lt256 s (hs s (by simp)) c h
      · subst h; decide
      · exact ih (fun x hx => hs x (by simp [hx])) c h

theorem printFacts_lt256 (ss : List String) (hs : ∀ s ∈ ss, SafeStr s) :
    ∀ c ∈ printFacts ss, c.toNat < 256 := by
  intro c hc
  simp only [printFacts, List.mem_cons, List.mem_append, List.mem_singleton,
    List.mem_nil_iff, or_false] at hc
  rcases hc with (h | h) | h
  · subst h; decide
  · exact printItems_lt256 ss hs c h
  · subst h; decide

theorem jkey_lt256 (k : String) (hk : SafeStr k) : ∀ c ∈ jkey k, c.toNat < 256 := by
  intro c hc
  simp only [jkey, List.mem_cons, List.mem_append, List.mem_singleton,
    List.mem_nil_iff, or_false] at hc
  rcases hc with (h | h) | h | h
  · subst h; decide
  · exact safe_toNat_lt (hk c h)
  · subst h; decide
  · subst h; decide

theorem printKVItems_lt256 (ps : List (String × String))
    (hs : ∀ kv ∈ ps, SafeStr kv.1 ∧ SafeStr kv.2) :
    ∀ c ∈ printKVItems ps, c.toNat < 256 := by
  induction ps with
  | nil => intro c hc; simp [printKVItems] at hc
  | cons kv ps' ih =>
    intro c hc
    cases ps' with
    | nil =>
      rw [show printKVItems [kv] = jkey kv.1 ++ qstr kv.2 from rfl] at hc
      rcases List.mem_append.mp hc with h | h
      · exact jkey_lt256 kv.1 (hs kv (by simp)).1 c h
      · exact qstr_lt256 kv.2 (hs kv (by simp)).2 c h
    | cons kv2 ps2 =>
      rw [show printKVItems (kv :: kv2 :: ps2) =
        jkey kv.1 ++ qstr kv.2 ++ ',' :: printKVItems (kv2 :: ps2) from rfl] at hc
      simp only [List.mem_append, List.mem_cons] at hc
      rcases hc with (h | h) | h | h
      · exact jkey_lt256 kv.1 (hs kv (by simp)).1 c h
      · exact qstr_lt256 kv.2 (hs kv (by simp)).2 c h
      · subst h; decide
      · exact ih (fun x hx => hs x (by simp [hx])) c h

theorem printRsc_lt256 (rsc : Resource) (hs : SafeRsc rsc) :
    ∀ c ∈ printRsc rsc, c.toNat < 256 := by
  intro c hc
  cases rsc with
  | wildcard =>
    rw [show printRsc Resource.wildcard = qstr "*" from rfl] at hc
    exact qstr_lt256 "*" (by decide) c hc
  | structured kvs =>
    simp only [printRsc, List.mem_cons, List.mem_append, List.mem_singleton,
      List.mem_nil_iff, or_false] at hc
    rcases hc with (h | h) | h
    · subst h; decide
    · exact printKVItems_lt256 kvs hs c h
    · subst h; decide

theorem printPrf_lt256 (o : Option String) (hs : ∀ s ∈ o, SafeStr s) :
    ∀ c ∈ printPrf o, c.toNat < 256 := by
  intro c hc
  cases o with
  | none =>
    rw [show printPrf none = "null".data from rfl] at hc
    have hall : ∀ x ∈ "null".data, Char.toNat x < 256 := by decide
    exact hall c hc
  | some s =>
    rw [show printPrf (some s) = qstr s from rfl] at hc
    exact qstr_lt256 s (hs s rfl) c hc

theorem printHeader_lt256 (h : UcanHeader) (hs : SafeHeader h) :
    ∀ c ∈ printHeader h, c.toNat < 256 := by
  obtain ⟨h1, h2, h3⟩ := hs
  rw [printHeader]
  simp only [List.forall_mem_append]
  exact ⟨by decide, qstr_lt256 _ h1, by decide, qstr_lt256 _ h2, by decide,
    qstr_lt256 _ h3, by decide⟩

theorem printPayload_lt256 (p : UcanPayload) (hp : SafePayload p) :
    ∀ c ∈ printPayload p, c.toNat < 256 := by
  obtain ⟨h1, h2, h3, h4, h5, h6⟩ := hp
  rw [printPayload]
  simp only [List.forall_mem_append]
  exact ⟨by decide, qstr_lt256 _ h1, by decide, printInt_lt256 _, by decide,
    printFacts_lt256 _ h4, by decide, qstr_lt256 _ h2, by decide, printInt_lt256 _,
    by decide, printPrf_lt256 _ h5, by decide, qstr_lt256 _ h3, by decide,
    printRsc_lt256 _ h6, by decide⟩

theorem mem_b64eP (bs : List Nat) : ∀ c ∈ b64eP bs, c ∈ alphaChars ∨ c = eqc := by
  induction bs using b64eP.induct with
  | case1 => intro c hc; simp [b64eP] at hc
  | case2 b1 =>
    intro c hc
    simp only [b64eP, List.mem_cons, List.not_mem_nil, or_false] at hc
    rcases hc with h | h | h | h
    · subst h; exact Or.inl (alpha_mem _)
    · subst h; exact Or.inl (alpha_mem _)
    · subst h; exact Or.inr rfl
    · subst h; exact Or.inr rfl
  | case3 b1 b2 =>
    intro c hc
    simp only [b64eP, List.mem_cons, List.not_mem_nil, or_false] at hc
    rcases hc with h | h | h | h
    · subst h; exact Or.inl (alpha_mem _)
    · subst h; exact Or.inl (alpha_mem _)
    · subst h; exact Or.inl (alpha_mem _)
    · subst h; exact Or.inr rfl
  | case4 b1 b2 b3 rest ih =>
    intro c hc
    simp only [b64eP, List.mem_cons] at hc
    rcases hc with h | h | h | h | h
    · subst h; exact Or.inl (alpha_mem _)
    · subst h; exact Or.inl (alpha_mem _)
    · subst h; exact Or.inl (alpha_mem _)
    · subst h; exact Or.inl (alpha_mem _)
    · exact ih c h

theorem mem_stripTrailing (c : Char) (l : List Char) :
    ∀ x ∈ stripTrailing c l, x ∈ l := by
  induction l with
  | nil => intro x hx; simp [stripTrailing] at hx
  | cons y ys ih =>
    intro x hx
    rw [stripTrailing] at hx
    cases hys : stripTrailing c ys with
    | nil =>
      rw [hys] at hx
      by_cases hy : y = c
      · rw [if_pos hy] at hx
        simp at hx
      · rw [if_neg hy] at hx
        simp only [List.mem_singleton] at hx
        simp [hx]
    | cons z zs =>
      rw [hys] at hx
      simp only [List.mem_cons] at hx
      rcases hx with h | h
      · simp [h]
      · have := ih x (by rw [hys]; exact List.mem_cons.mpr h)
        simp [this]

theorem urlEncodeL_mem (l : List Char) :
    ∀ c ∈ urlEncodeL l, (∃ a ∈ alphaChars, c = sub a) ∨ c = eqc := by
  intro c hc
  rw [urlEncodeL, makeUrlSafeL] at hc
  have h1 := mem_stripTrailing eqc _ c hc
  obtain ⟨a, ha, rfl⟩ := List.mem_map.mp h1
  rcases mem_b64eP _ a ha with h2 | h2
  · exact Or.inl ⟨a, h2, rfl⟩
  · subst h2
    exact Or.inr rfl

theorem sub_alpha_props : ∀ a ∈ alphaChars, sub a ≠ '.' ∧ jsonSafeChar (sub a) = true := by
  decide

theorem urlEncodeL_ne_dot (l : List Char) : ∀ c ∈ urlEncodeL l, c ≠ '.' := by
  intro c hc
  rcases urlEncodeL_mem l c hc with ⟨a, ha, rfl⟩ | h
  · exact (sub_alpha_props a ha).1
  · subst h; decide

theorem urlEncodeL_safe (l : List Char) : ∀ c ∈ urlEncodeL l, jsonSafeChar c = true := by
  intro c hc
  rcases urlEncodeL_mem l c hc with ⟨a, ha, rfl⟩ | h
  · exact (sub_alpha_props a ha).2
  · subst h; decide

/-- encodeHeader (src/did/transformers.ts): base64url of the header JSON. -/
def encodeHeader (h : UcanHeader) : String := String.mk (urlEncodeL (printHeader h))

/-- encodePayload (src/did/transformers.ts): base64url of the payload JSON. -/
def encodePayload (p : UcanPayload) : String := String.mk (urlEncodeL (printPayload p))

/-- The signing input of a UCAN: encoded header, a dot, encoded payload
(src/did/transformers.ts, the string signed by sign and checked by isValid). -/
def signingInput (h : UcanHeader) (p : UcanPayload) : String :=
  String.mk ((encodeHeader h).data ++ '.' :: (encodePayload p).data)

/-- encode (src/did/transformers.ts): the three dot-joined segments; an absent
signature is coerced to the four-character string null by the JavaScript
string concatenation. -/
def encode (u : Ucan) : String :=
  String.mk ((encodeHeader u.header).data ++ '.' :: (encodePayload u.payload).data ++
    '.' :: (match u.signature with | some s => s.data | none => "null".data))

/-- decode (src/did/transformers.ts): split on dots, base64url-decode and
JSON-parse the first two segments, capture the third verbatim; a missing or
empty third segment becomes an absent signature; extra segments are ignored.
Thrown errors are modelled as none. -/
def decode (s : String) : Option Ucan :=
  let parts := splitOnChar '.' s.data
  match parts.get? 0, parts.get? 1 with
  | some s0, some s1 =>
    (urlDecodeL s0).bind fun h0 =>
      (parseHeaderFull h0).bind fun header =>
        (urlDecodeL s1).bind fun p0 =>
          (parsePayloadFull p0).bind fun payload =>
            some { header := header, payload := payload,
                   signature :=
                     match parts.get? 2 with
                     | some s2 => if s2 = [] then none else some (String.mk s2)
                     | none => none }
  | _, _ => none

/-- The wire form of the signature slot: the signature string itself, or the
literal null produced by the JavaScript coercion for an absent signature. -/
def sigW : Option String → String
  | some s => s
  | none => "null"

/-- Signatures that survive the wire roundtrip verbatim: nonempty and free of
the dot separator. -/
def SafeSig : Option String → Prop
  | none => True
  | some s => s ≠ "" ∧ '.' ∉ s.data

theorem decode_encode (u : Ucan) (hh : SafeHeader u.header)
    (hp : SafePayload u.payload) (hsig : SafeSig u.signature) :
    decode (encode u) = some { u with signature := some (sigW u.signature) } := by
  have hEH : ∀ c ∈ (encodeHeader u.header).data, c ≠ '.' := by
    intro c hc
    exact urlEncodeL_ne_dot _ c hc
  have hEP : ∀ c ∈ (encodePayload u.payload).data, c ≠ '.' := by
    intro c hc
    exact urlEncodeL_ne_dot _ c hc
  have hSIG : '.' ∉ (sigW u.signature).data := by
    cases hs : u.signature with
    | none => decide
    | some s =>
      rw [hs] at hsig
      exact hsig.2
  have hsigdata : (match u.signature with
      | some s => s.data
      | none => "null".data) = (sigW u.signature).data := by
    cases u.signature <;> rfl
  have hsplit : splitOnChar '.' (encode u).data =
      [(encodeHeader u.header).data, (encodePayload u.payload).data,
        (sigW u.signature).data] := by
    rw [encode, data_mk, hsigdata]
    simp only [List.cons_append, List.append_assoc]
    rw [splitOnChar_append '.' _ _ (by
      intro hmem
      exact hEH '.' hmem rfl)]
    rw [splitOnChar_append '.' _ _ (by
      intro hmem
      exact hEP '.' hmem rfl)]
    rw [splitOnChar_of_not_mem '.' _ hSIG]
  rw [decode]
  simp only [hsplit]
  have hs0 : [(encodeHeader u.header).data, (encodePayload u.payload).data,
      (sigW u.signature).data].get? 0 = some (encodeHeader u.header).data := rfl
  have hs1 : [(encodeHeader u.header).data, (encodePayload u.payload).data,
      (sigW u.signature).data].get? 1 = some (encodePayload u.payload).data := rfl
  have hs2 : [(encodeHeader u.header).data, (encodePayload u.payload).data,
      (sigW u.signature).data].get? 2 = some (sigW u.signature).data := rfl
  simp only [hs0, hs1, hs2]
  rw [encodeHeader, data_mk, urlDecodeL_urlEncodeL _ (printHeader_lt256 _ hh),
    Option.some_bind, parseHeaderFull_rt _ hh, Option.some_bind]
  rw [encodePayload, data_mk, urlDecodeL_urlEncodeL _ (printPayload_lt256 _ hp),
    Option.some_bind, parsePayloadFull_rt _ hp, Option.some_bind]
  have hne : (sigW u.signature).data ≠ [] := by
    cases hs : u.signature with
    | none => decide
    | some s =>
      rw [hs] at hsig
      intro hd
      exact hsig.1 (by
        have := congrArg String.mk hd
        rw [mk_data] at this
        exact this)
  rw [if_neg hne, mk_data]

/-- isExpired (src/did/transformers.ts): the expiry is no later than the
current time; the ambient clock of the source is an explicit parameter. -/
def isExpired (u : Ucan) (now : Int) : Bool := decide (u.payload.exp ≤ now)

/-- The truthiness test the source applies to an optional proof string: null
and the empty string are falsy. -/
def truthyStr : Option String → Option String
  | none => none
  | some s => if s = "" then none else some s

/-- The truthy proof slot of a decoded token. -/
def truthyPrf (u : Ucan) : Option String := truthyStr u.payload.prf

/-- Failure modes of the modelled recursive validation. -/
inductive VErr where
  | outOfFuel
  | malformedProof
deriving DecidableEq, Repr

/-- The signature check performed by isValid: verifySignedData over the
signing input, the issuer DID, and the URL-unsafe form of the signature
(src/did/validation.ts is not among the vendored sources, so the verifier is
an explicit function parameter). -/
def sigVerifies (verify : String → String → String → Bool) (u : Ucan) : Bool :=
  verify (signingInput u.header u.payload) u.payload.iss
    (makeUrlUnsafe (match u.signature with | some s => s | none => ""))

/-- isValid (src/did/transformers.ts): verify the signature; succeed if there
is no truthy proof; otherwise decode the proof, check chain continuity
(proof audience equals token issuer), and recurse. The fuel argument bounds
the recursion of the model; the source recursion carries no such bound. -/
def isValid (verify : String → String → String → Bool) :
    Nat → Ucan → Except VErr Bool
  | 0, _ => .error .outOfFuel
  | fuel + 1, u =>
    if sigVerifies verify u then
      match truthyPrf u with
      | none => .ok true
      | some pstr =>
        match decode pstr with
        | none => .error .malformedProof
        | some prf =>
          if prf.payload.aud = u.payload.iss then isValid verify fuel prf
          else .ok false
    else .ok false

/-- The decoded proof chain of a token: the token followed by the decoded
chain of its truthy proof. -/
def decodeChain : Nat → Ucan → Option (List Ucan)
  | 0, _ => none
  | fuel + 1, u =>
    match truthyPrf u with
    | none => some [u]
    | some pstr =>
      match decode pstr with
      | none => none
      | some prf => (decodeChain fuel prf).map (u :: ·)

/-- Chain continuity between a token and its decoded proof: the proof is
addressed to the token's issuer. -/
def chainLink (child proof : Ucan) : Prop := proof.payload.aud = child.payload.iss

/-- Failure modes of the modelled rootIssuer. -/
inductive RIErr where
  | outOfFuel
  | malformed (level : Nat)
deriving DecidableEq, Repr

/-- extractPayload (src/did/transformers.ts): parse the payload segment of an
encoded UCAN; any failure in splitting, base64 decoding or JSON parsing is
none, which rootIssuer annotates with its recursion level. -/
def extractPayload (ucan : String) : Option UcanPayload :=
  ((splitOnChar '.' ucan.data).get? 1).bind fun s1 =>
    (urlDecodeL s1).bind parsePayloadFull

/-- rootIssuer (src/did/transformers.ts): extract the payload; recurse into a
truthy proof with the level incremented; otherwise return this payload's
issuer. A parse failure is annotated with the current level. The fuel bounds
the recursion of the model. -/
def rootIssuer (fuel : Nat) (ucan : String) (level : Nat) : Except RIErr String :=
  match fuel with
  | 0 => .error .outOfFuel
  | fuel + 1 =>
    match extractPayload ucan with
    | none => .error (.malformed level)
    | some p =>
      match p.prf with
      | some pstr => if pstr = "" then .ok p.iss else rootIssuer fuel pstr (level + 1)
      | none => .ok p.iss

/-- The chain of payloads reachable from an encoded token through truthy
proof fields. -/
def payloadChain : Nat → String → Option (List UcanPayload)
  | 0, _ => none
  | fuel + 1, s =>
    match extractPayload s with
    | none => none
    | some p =>
      match p.prf with
      | some pstr =>
        if pstr = "" then some [p] else (payloadChain fuel pstr).map (p :: ·)
      | none => some [p]

/-- Shift of a rootIssuer error annotation by a starting level. -/
def shiftLevel (lvl : Nat) : Except RIErr String → Except RIErr String
  | .error (.malformed d) => .error (.malformed (d + lvl))
  | e => e

/-- jwtAlgorithm (src/did/transformers.ts): the JWT algorithm label of a
crypto system name. -/
def jwtAlgorithm (cryptoSystem : String) : Option String :=
  if cryptoSystem = "ed25519" then some "EdDSA"
  else if cryptoSystem = "rsa" then some "RS256"
  else none

/-- The named parameters of build (src/did/transformers.ts), with the
destructuring defaults of the source. -/
structure BuildParams where
  addSignature : Bool := true
  audience : String
  facts : List String := []
  issuer : Option String := none
  lifetimeInSeconds : Option Int := none
  expiration : Option Int := none
  potency : String := "APPEND"
  proof : Option String := none
  resource : Option Resource := none
deriving Repr

/-- build (src/did/transformers.ts). The ambient inputs of the source - the
current time, the keystore algorithm, the device DID of did.ucan(), and the
keystore signing function - are explicit parameters. An undecodable truthy
proof, which the source surfaces as a thrown error, yields none. The zero
checks mirror the JavaScript truthiness tests on the expiration, issuer and
proof arguments. -/
def build (now : Int) (ksAlg : String) (deviceDid : String)
    (signFn : UcanHeader → UcanPayload → String) (ps : BuildParams) : Option Ucan :=
  let decodedProof? : Option (Option Ucan) :=
    match truthyStr ps.proof with
    | none => some none
    | some pstr => (decode pstr).map some
  decodedProof?.map fun decodedProof =>
    let header : UcanHeader :=
      { alg := (jwtAlgorithm ksAlg).getD "UnknownAlgorithm",
        typ := "JWT", uav := "1.0.0" }
    let exp0 : Int :=
      match ps.expiration with
      | some e => if e = 0 then now + ps.lifetimeInSeconds.getD 30 else e
      | none => now + ps.lifetimeInSeconds.getD 30
    let nbf0 : Int := now - 60
    let exp : Int :=
      match decodedProof with
      | some prfU => min prfU.payload.exp exp0
      | none => exp0
    let nbf : Int :=
      match decodedProof with
      | some prfU => max prfU.payload.nbf nbf0
      | none => nbf0
    let payload : UcanPayload :=
      { aud := ps.audience, exp := exp, fct := ps.facts,
        iss :=
          match ps.issuer with
          | some s => if s = "" then deviceDid else s
          | none => deviceDid,
        nbf := nbf, prf := truthyStr ps.proof, ptc := ps.potency,
        rsc :=
          match ps.resource with
          | some r => r
          | none =>
            match decodedProof with
            | some prfU => prfU.payload.rsc
            | none => Resource.wildcard }
    { header := header, payload := payload,
      signature := if ps.addSignature then some (signFn header payload) else none }

instance (sig : Option String) : Decidable (SafeSig sig) :=
  match sig with
  | none => .isTrue trivial
  | some s => inferInstanceAs (Decidable (s ≠ "" ∧ '.' ∉ s.data))

theorem encode_split (u : Ucan) (hsig : '.' ∉ (sigW u.signature).data) :
    splitOnChar '.' (encode u).data =
      [(encodeHeader u.header).data, (encodePayload u.payload).data,
        (sigW u.signature).data] := by
  have hsigdata : (match u.signature with
      | some s => s.data
      | none => "null".data) = (sigW u.signature).data := by
    cases u.signature <;> rfl
  rw [encode, data_mk, hsigdata]
  simp only [List.cons_append, List.append_assoc]
  rw [splitOnChar_append '.' _ _ (by
    intro hmem
    exact urlEncodeL_ne_dot _ '.' hmem rfl)]
  rw [splitOnChar_append '.' _ _ (by
    intro hmem
    exact urlEncodeL_ne_dot _ '.' hmem rfl)]
  rw [splitOnChar_of_not_mem '.' _ hsig]

/-- A concrete header used by witnesses and counterexamples. -/
def hdr0 : UcanHeader := { alg := "EdDSA", typ := "JWT", uav := "1.0.0" }

/-- A concrete payload used by witnesses and counterexamples. -/
def pay0 : UcanPayload :=
  { aud := "did:key:zB", exp := 100, fct := [], iss := "did:key:zA", nbf := 0,
    prf := none, ptc := "APPEND", rsc := .wildcard }

/-- A concrete token used by witnesses. -/
def tok0 : Ucan :=
  { header := hdr0, payload := { pay0 with exp := 3 }, signature := some "sig" }

/-- C4: isExpired is true exactly when the payload expiry is no later than
the current time; with the expiry equal to now or now - 1 it is true, and
with now + 1 it is false. -/
theorem claim_C4_isExpired (u : Ucan) (now : Int) :
    (isExpired u now = true ↔ u.payload.exp ≤ now) ∧
    isExpired { u with payload := { u.payload with exp := now } } now = true ∧
    isExpired { u with payload := { u.payload with exp := now - 1 } } now = true ∧
    isExpired { u with payload := { u.payload with exp := now + 1 } } now = false := by
  refine ⟨by simp [isExpired], by simp [isExpired], by simp [isExpired], ?_⟩
  simp only [isExpired, decide_eq_false_iff_not]
  omega

theorem claim_C4_isExpired_witness : isExpired tok0 5 = true :=
  (claim_C4_isExpired tok0 5).1.mpr (by decide)

/-- A two-segment wire string whose segments both parse. -/
def cex2 : String :=
  String.mk ((encodeHeader hdr0).data ++ '.' :: (encodePayload pay0).data)

/-- A four-segment wire string whose first two segments parse. -/
def cex4 : String :=
  String.mk ((encodeHeader hdr0).data ++ '.' :: (encodePayload pay0).data ++
    '.' :: 'x' :: '.' :: ['y'])

set_option maxRecDepth 100000 in
/-- C3 counterexample: a four-dot-segment input - a wrong segment count - on
which decode nevertheless returns a token, refuting the claim that decode
fails for every input whose segment count is not three. -/
theorem claim_C3_cex :
    (splitOnChar '.' cex4.data).length = 4 ∧
    decode cex4 = some { header := hdr0, payload := pay0, signature := some "x" } := by
  constructor
  · decide
  · decide

set_option maxRecDepth 100000 in
/-- C3 (amended): decode fails whenever there are fewer than two dot-separated
segments, but it does not check the segment count: with parseable first two
segments, a two-segment input decodes (with an absent signature) and a
four-segment input decodes (third segment as signature, fourth ignored). -/
theorem claim_C3_decode_segments :
    (∀ s : String, (splitOnChar '.' s.data).length < 2 → decode s = none) ∧
    ((splitOnChar '.' cex2.data).length = 2 ∧
      decode cex2 = some { header := hdr0, payload := pay0, signature := none }) ∧
    ((splitOnChar '.' cex4.data).length = 4 ∧
      decode cex4 = some { header := hdr0, payload := pay0, signature := some "x" }) := by
  refine ⟨?_, ⟨by decide, by decide⟩, ⟨by decide, by decide⟩⟩
  intro s hlen
  have h1 : (splitOnChar '.' s.data).get? 1 = none := by
    rw [List.get?_eq_none]
    omega
  cases h0 : (splitOnChar '.' s.data).get? 0 with
  | none => simp only [decode, h0, h1]
  | some v => simp only [decode, h0, h1]

theorem claim_C3_decode_segments_witness : decode "abc" = none :=
  claim_C3_decode_segments.1 "abc" (by decide)

/-- C10: encoding a token whose signature is absent emits the literal
four-character string null as the third segment, and decoding the result
yields a token whose signature is the string null rather than absent. -/
theorem claim_C10_null_signature (u : Ucan) (hh : SafeHeader u.header)
    (hp : SafePayload u.payload) (hsig : u.signature = none) :
    (splitOnChar '.' (encode u).data).get? 2 = some ("null".data) ∧
    decode (encode u) = some { u with signature := some "null" } := by
  constructor
  · rw [encode_split u (by rw [hsig]; decide), hsig]
    rfl
  · have h := decode_encode u hh hp (by rw [hsig]; trivial)
    rw [hsig] at h
    exact h

/-- A concrete unsigned token. -/
def tokNoSig : Ucan := { header := hdr0, payload := pay0, signature := none }

theorem claim_C10_null_signature_witness :
    (splitOnChar '.' (encode tokNoSig).data).get? 2 = some ("null".data) ∧
    decode (encode tokNoSig) = some { tokNoSig with signature := some "null" } :=
  claim_C10_null_signature tokNoSig (by decide) (by decide) rfl

/-- C7 counterexample: the roundtrip on the unpadded one-byte base64 key AA
returns the padded representation AA==, refuting string-for-string equality
of the key representation. -/
theorem claim_C7_cex :
    (publicKeyToDid "AA" KeyType.ed25519).bind didToPublicKey =
      some ("AA==", KeyType.ed25519) ∧ ("AA==" : String) ≠ "AA" := by
  constructor
  · decide
  · decide

/-- C7 (amended): for every supported tag and every valid base64 key string,
the roundtrip recovers the key bytes and the tag, returning the padded
base64 representation of the bytes; the returned string equals the input
exactly when the input is already in padded canonical form. -/
theorem claim_C7_did_roundtrip (key : String) (bytes : List Nat) (t : KeyType)
    (hk : b64decode key.data = some bytes) :
    (publicKeyToDid key t).bind didToPublicKey = some (String.mk (b64eP bytes), t) ∧
    (key = String.mk (b64eP bytes) →
      (publicKeyToDid key t).bind didToPublicKey = some (key, t)) := by
  have h := did_key_roundtrip key bytes t hk
  exact ⟨h, fun hkey => by rw [h, ← hkey]⟩

theorem claim_C7_did_roundtrip_witness :
    b64decode ("AA==" : String).data = some [0] ∧
    (publicKeyToDid "AA==" KeyType.rsa).bind didToPublicKey =
      some (String.mk (b64eP [0]), KeyType.rsa) :=
  ⟨by decide, (claim_C7_did_roundtrip "AA==" [0] KeyType.rsa (by decide)).1⟩

/-- Parameters exhibiting the C5 counterexample: a past explicit expiry. -/
def bpC5 : BuildParams := { audience := "did:key:zB", expiration := some 1 }

/-- C5 counterexample: with an explicit expiration in the past, build emits a
token whose expiry 1 lies strictly before its not-before 940, refuting the
claim that every built token satisfies exp at least nbf for an arbitrary
explicit expiration. -/
theorem claim_C5_cex :
    (build 1000 "ed25519" "did:key:zA" (fun h p => "s") bpC5).map
        (fun u => (u.payload.exp, u.payload.nbf)) = some (1, 940) ∧
      ¬ ((940 : Int) ≤ 1) := by
  constructor
  · decide
  · decide

/-- C5 (amended): with no explicit expiration, no proof, and a nonnegative
lifetime (default 30), every built token satisfies nbf at most exp; with an
arbitrary past explicit expiration the invariant fails, as the
counterexample shows. -/
theorem claim_C5_window (now : Int) (ksAlg deviceDid : String)
    (signFn : UcanHeader → UcanPayload → String) (ps : BuildParams) (u : Ucan)
    (hexp : ps.expiration = none) (hprf : ps.proof = none)
    (hL : 0 ≤ ps.lifetimeInSeconds.getD 30)
    (hb : build now ksAlg deviceDid signFn ps = some u) :
    u.payload.nbf ≤ u.payload.exp := by
  rw [build, hprf] at hb
  simp only [truthyStr, Option.map_some', Option.some.injEq] at hb
  subst hb
  simp only [hexp]
  omega

/-- The header of tokens built with an rsa keystore. -/
def hdrRS : UcanHeader := { alg := "RS256", typ := "JWT", uav := "1.0.0" }

/-- The payload of the token built by the C5 witness parameters. -/
def payC5 : UcanPayload :=
  { aud := "a", exp := 30, fct := [], iss := "d", nbf := -60,
    prf := none, ptc := "APPEND", rsc := .wildcard }

/-- The token built by the C5 witness parameters. -/
def tokC5 : Ucan := { header := hdrRS, payload := payC5, signature := some "s" }

theorem claim_C5_window_witness : tokC5.payload.nbf ≤ tokC5.payload.exp :=
  claim_C5_window 0 "rsa" "d" (fun h p => "s") { audience := "a" } tokC5
    rfl rfl (by decide) (by decide)

/-- The proof token of the C2 scenarios. -/
def prfC2 : Ucan :=
  { header := hdr0, payload := { pay0 with exp := 500, nbf := 900 },
    signature := some "sg" }

/-- Parameters exhibiting the C2 counterexample: an explicit expiration of
zero alongside a proof. -/
def bpC2 : BuildParams :=
  { audience := "did:key:zB", expiration := some 0, proof := some (encode prfC2) }

set_option maxRecDepth 100000 in
/-- C2 counterexample: an explicit expiration of 0 is falsy in JavaScript,
so the requested expiry is not 0 but now + lifetime; the built exp is
therefore 500 rather than min 0 500 = 0, refuting the claim for every
explicit expiration value. -/
theorem claim_C2_cex :
    (build 1000 "ed25519" "did:key:zA" (fun h p => "s") bpC2).map
        (fun u => u.payload.exp) = some 500 ∧ ((500 : Int) ≠ min 0 500) := by
  constructor
  · decide
  · decide

/-- The requested expiry of build (src/did/transformers.ts, line 110): the
explicit expiration when given and nonzero; a zero explicit expiration is
falsy in JavaScript and falls back to now + lifetime, as does an absent
one. -/
def requestedExp (now : Int) (ps : BuildParams) : Int :=
  match ps.expiration with
  | some e => if e = 0 then now + ps.lifetimeInSeconds.getD 30 else e
  | none => now + ps.lifetimeInSeconds.getD 30

/-- C2 (amended): with a decodable truthy proof supplied, the built exp is
min(proof exp, requested expiry) and the built nbf is max(proof nbf,
now - 60), where the requested expiry falls back to now + lifetime when the
explicit expiration is absent or zero (zero being falsy in JavaScript). -/
theorem claim_C2_build_narrowing (now : Int) (ksAlg deviceDid : String)
    (signFn : UcanHeader → UcanPayload → String) (ps : BuildParams)
    (pstr : String) (prfU : Ucan) (u : Ucan)
    (hp : ps.proof = some pstr) (hne : pstr ≠ "") (hdec : decode pstr = some prfU)
    (hb : build now ksAlg deviceDid signFn ps = some u) :
    u.payload.exp = min prfU.payload.exp (requestedExp now ps) ∧
    u.payload.nbf = max prfU.payload.nbf (now - 60) := by
  rw [build, hp] at hb
  simp only [truthyStr, if_neg hne, hdec, Option.map_some', Option.some.injEq] at hb
  subst hb
  exact ⟨rfl, rfl⟩

/-- Parameters of the C2 witness: a nonzero explicit expiration and a
proof. -/
def bpC2W : BuildParams :=
  { audience := "did:key:zB", expiration := some 2000, proof := some (encode prfC2) }

/-- The payload of the token built from bpC2W at time 1000. -/
def payC2 : UcanPayload :=
  { aud := "did:key:zB", exp := 500, fct := [], iss := "did:key:zA",
    nbf := 940, prf := some (encode prfC2), ptc := "APPEND", rsc := .wildcard }

/-- The token built from bpC2W at time 1000. -/
def tokC2 : Ucan := { header := hdr0, payload := payC2, signature := some "s" }

set_option maxRecDepth 100000 in
theorem claim_C2_build_narrowing_witness :
    tokC2.payload.exp = min prfC2.payload.exp (requestedExp 1000 bpC2W) ∧
    tokC2.payload.nbf = max prfC2.payload.nbf (1000 - 60) :=
  claim_C2_build_narrowing 1000 "ed25519" "did:key:zA" (fun h p => "s") bpC2W
    (encode prfC2) prfC2 tokC2 rfl (by decide) (by decide) (by decide)

/-- C9: the resource slot of a built token: a supplied resource verbatim;
otherwise the decoded truthy proof's resource; otherwise the wildcard. -/
theorem claim_C9_resource (now : Int) (ksAlg deviceDid : String)
    (signFn : UcanHeader → UcanPayload → String) (ps : BuildParams) (u : Ucan)
    (hb : build now ksAlg deviceDid signFn ps = some u) :
    (∀ r, ps.resource = some r → u.payload.rsc = r) ∧
    (ps.resource = none →
      ∀ pstr prfU, ps.proof = some pstr → pstr ≠ "" → decode pstr = some prfU →
        u.payload.rsc = prfU.payload.rsc) ∧
    (ps.resource = none → truthyStr ps.proof = none →
      u.payload.rsc = Resource.wildcard) := by
  rw [build] at hb
  cases hps : truthyStr ps.proof with
  | none =>
    simp only [hps, Option.map_some', Option.some.injEq] at hb
    subst hb
    refine ⟨?_, ?_, ?_⟩
    · intro r hr
      simp [hr]
    · intro hrn pstr prfU hp hne hdec
      rw [hp] at hps
      simp only [truthyStr, if_neg hne] at hps
      exact absurd hps (by simp)
    · intro hrn _
      simp [hrn]
  | some pstr0 =>
    simp only [hps] at hb
    cases hdec0 : decode pstr0 with
    | none =>
      rw [hdec0] at hb
      simp at hb
    | some prfU0 =>
      rw [hdec0] at hb
      simp only [Option.map_some', Option.some.injEq] at hb
      subst hb
      refine ⟨?_, ?_, ?_⟩
      · intro r hr
        simp [hr]
      · intro hrn pstr prfU hp hne hdec
        rw [hp] at hps
        simp only [truthyStr, if_neg hne, Option.some.injEq] at hps
        subst hps
        rw [hdec] at hdec0
        simp only [Option.some.injEq] at hdec0
        subst hdec0
        simp [hrn]
      · intro hrn habs
        exact absurd habs (by simp)

/-- The build parameters of the C9 witness: an explicitly supplied
resource. -/
def bpC9 : BuildParams :=
  { audience := "a", resource := some (Resource.structured [("k", "v")]) }

/-- The payload of the token built from bpC9. -/
def payC9 : UcanPayload :=
  { aud := "a", exp := 30, fct := [], iss := "d", nbf := -60,
    prf := none, ptc := "APPEND", rsc := Resource.structured [("k", "v")] }

/-- The token built from bpC9. -/
def tokC9 : Ucan := { header := hdrRS, payload := payC9, signature := some "s" }

theorem claim_C9_resource_witness :
    tokC9.payload.rsc = Resource.structured [("k", "v")] :=
  (claim_C9_resource 0 "rsa" "d" (fun h p => "s") bpC9 tokC9 (by decide)).1
    (Resource.structured [("k", "v")]) rfl

instance {ε α : Type} [DecidableEq ε] [DecidableEq α] :
    DecidableEq (Except ε α) := fun x y =>
  match x, y with
  | Except.ok a, Except.ok b =>
    if h : a = b then Decidable.isTrue (by rw [h])
    else Decidable.isFalse (fun hc => h (Except.ok.inj hc))
  | Except.error a, Except.error b =>
    if h : a = b then Decidable.isTrue (by rw [h])
    else Decidable.isFalse (fun hc => h (Except.error.inj hc))
  | Except.ok a, Except.error b => Decidable.isFalse (fun hc => Except.noConfusion hc)
  | Except.error a, Except.ok b => Decidable.isFalse (fun hc => Except.noConfusion hc)

theorem rootIssuer_succ (n : Nat) (s : String) (lvl : Nat) :
    rootIssuer (n + 1) s lvl =
      match extractPayload s with
      | none => Except.error (RIErr.malformed lvl)
      | some p =>
        match p.prf with
        | some pstr =>
          if pstr = "" then Except.ok p.iss else rootIssuer n pstr (lvl + 1)
        | none => Except.ok p.iss := rfl

theorem payloadChain_succ (n : Nat) (s : String) :
    payloadChain (n + 1) s =
      match extractPayload s with
      | none => none
      | some p =>
        match p.prf with
        | some pstr =>
          if pstr = "" then some [p] else (payloadChain n pstr).map (p :: ·)
        | none => some [p] := rfl

theorem shiftLevel_ok (lvl : Nat) (s : String) :
    shiftLevel lvl (Except.ok s) = Except.ok s := rfl

theorem shiftLevel_comp (a b : Nat) (e : Except RIErr String) :
    shiftLevel a (shiftLevel b e) = shiftLevel (b + a) e := by
  cases e with
  | ok s => rfl
  | error err =>
    cases err with
    | outOfFuel => rfl
    | malformed d => simp [shiftLevel, Nat.add_assoc]

theorem rootIssuer_shift :
    ∀ (fuel : Nat) (s : String) (lvl : Nat),
      rootIssuer fuel s lvl = shiftLevel lvl (rootIssuer fuel s 0) := by
  intro fuel
  induction fuel with
  | zero =>
    intro s lvl
    rfl
  | succ n ih =>
    intro s lvl
    rw [rootIssuer_succ n s lvl, rootIssuer_succ n s 0]
    cases hx : extractPayload s with
    | none => simp [shiftLevel]
    | some p =>
      dsimp only
      cases hp : p.prf with
      | none => simp [shiftLevel]
      | some pstr =>
        dsimp only
        by_cases hps : pstr = ""
        · simp [hps, shiftLevel]
        · simp only [if_neg hps]
          rw [ih pstr (lvl + 1), ih pstr (0 + 1), shiftLevel_comp]
          congr 1
          omega

theorem payloadChain_ne_nil (fuel : Nat) (s : String) (ps : List UcanPayload)
    (h : payloadChain fuel s = some ps) : ps ≠ [] := by
  cases fuel with
  | zero => exact absurd h (by simp [payloadChain])
  | succ n =>
    rw [payloadChain_succ] at h
    cases hx : extractPayload s with
    | none =>
      rw [hx] at h
      simp at h
    | some p =>
      rw [hx] at h
      simp only [] at h
      cases hp : p.prf with
      | none =>
        simp only [hp, Option.some.injEq] at h
        subst h
        simp
      | some pstr =>
        simp only [hp] at h
        by_cases hps : pstr = ""
        · rw [if_pos hps] at h
          simp only [Option.some.injEq] at h
          subst h
          simp
        · rw [if_neg hps] at h
          cases hq : payloadChain n pstr with
          | none =>
            rw [hq] at h
            simp at h
          | some qs =>
            rw [hq] at h
            simp only [Option.map_some', Option.some.injEq] at h
            subst h
            simp

theorem rootIssuer_chain :
    ∀ (fuel : Nat) (s : String) (ps : List UcanPayload),
      payloadChain fuel s = some ps →
      ∀ hne : ps ≠ [], rootIssuer fuel s 0 = Except.ok (ps.getLast hne).iss := by
  intro fuel
  induction fuel with
  | zero =>
    intro s ps h hne
    exact absurd h (by simp [payloadChain])
  | succ n ih =>
    intro s ps h hne
    rw [payloadChain_succ] at h
    rw [rootIssuer_succ]
    cases hx : extractPayload s with
    | none =>
      rw [hx] at h
      simp at h
    | some p =>
      rw [hx] at h
      simp only [] at h ⊢
      cases hp : p.prf with
      | none =>
        simp only [hp, Option.some.injEq] at h ⊢
        subst h
        rfl
      | some pstr =>
        simp only [hp] at h ⊢
        by_cases hps : pstr = ""
        · rw [if_pos hps] at h ⊢
          simp only [Option.some.injEq] at h
          subst h
          rfl
        · rw [if_neg hps] at h ⊢
          cases hq : payloadChain n pstr with
          | none =>
            rw [hq] at h
            simp at h
          | some qs =>
            rw [hq] at h
            simp only [Option.map_some', Option.some.injEq] at h
            subst h
            have hqne : qs ≠ [] := payloadChain_ne_nil n pstr qs hq
            rw [rootIssuer_shift n pstr (0 + 1), ih pstr qs hq hqne, shiftLevel_ok]
            rw [List.getLast_cons hqne]

/-- The payload of the deepest token of the C6 chain: its issuer is the
root issuer. -/
def payC6leaf : UcanPayload :=
  { pay0 with iss := "did:key:zROOT", aud := "did:key:zMID" }

/-- The leaf token of the C6 chain. -/
def tokC6leaf : Ucan :=
  { header := hdr0, payload := payC6leaf, signature := some "s1" }

/-- The payload of the middle token of the C6 chain. -/
def payC6mid : UcanPayload :=
  { pay0 with
      iss := "did:key:zMID", aud := "did:key:zTOP", prf := some (encode tokC6leaf) }

/-- The middle token of the C6 chain. -/
def tokC6mid : Ucan :=
  { header := hdr0, payload := payC6mid, signature := some "s2" }

/-- The payload of the top token of the C6 chain. -/
def payC6top : UcanPayload :=
  { pay0 with iss := "did:key:zTOP", prf := some (encode tokC6mid) }

/-- The top token of the C6 chain. -/
def tokC6top : Ucan :=
  { header := hdr0, payload := payC6top, signature := some "s3" }

/-- The encoded three-level chain of C6. -/
def chain3 : String := encode tokC6top

/-- The payload of a middle token carrying a malformed proof string. -/
def payC6midBad : UcanPayload := { pay0 with prf := some "!!!" }

/-- A middle token whose proof string is malformed. -/
def tokC6midBad : Ucan :=
  { header := hdr0, payload := payC6midBad, signature := some "s2" }

/-- The payload of a top token whose second-level proof is malformed. -/
def payC6topBad : UcanPayload := { pay0 with prf := some (encode tokC6midBad) }

/-- A top token whose second-level proof is malformed. -/
def tokC6topBad : Ucan :=
  { header := hdr0, payload := payC6topBad, signature := some "s3" }

/-- The encoded chain of C6 whose second-level proof is malformed. -/
def chainBad : String := encode tokC6topBad

set_option maxRecDepth 1000000 in
/-- C6: rootIssuer returns the issuer of the deepest payload reachable
through truthy proofs, and annotates a parse failure with its recursion
depth (the level argument shifts every failure annotation); on the concrete
three-level chain it returns the root issuer, and on the chain whose
second-level proof is malformed it fails reporting depth 2. -/
theorem claim_C6_rootIssuer :
    (∀ (fuel : Nat) (s : String) (ps : List UcanPayload),
        payloadChain fuel s = some ps →
        ∀ hne : ps ≠ [], rootIssuer fuel s 0 = Except.ok (ps.getLast hne).iss) ∧
    (∀ (fuel : Nat) (s : String) (lvl : Nat),
        rootIssuer fuel s lvl = shiftLevel lvl (rootIssuer fuel s 0)) ∧
    rootIssuer 9 chain3 0 = Except.ok "did:key:zROOT" ∧
    rootIssuer 9 chainBad 0 = Except.error (RIErr.malformed 2) :=
  ⟨rootIssuer_chain, rootIssuer_shift, by decide, by decide⟩

/-- The payloads of the C6 chain, deepest last. -/
def chain3Payloads : List UcanPayload := [payC6top, payC6mid, payC6leaf]

set_option maxRecDepth 1000000 in
theorem claim_C6_rootIssuer_witness :
    rootIssuer 9 chain3 0 = Except.ok ((chain3Payloads.getLast (by decide)).iss) :=
  claim_C6_rootIssuer.1 9 chain3 chain3Payloads (by decide) (by decide)

theorem decodeChain_succ (n : Nat) (u : Ucan) :
    decodeChain (n + 1) u =
      match truthyPrf u with
      | none => some [u]
      | some pstr =>
        match decode pstr with
        | none => none
        | some prf => (decodeChain n prf).map (u :: ·) := rfl

theorem isValid_succ (verify : String → String → String → Bool) (n : Nat)
    (u : Ucan) :
    isValid verify (n + 1) u =
      if sigVerifies verify u then
        match truthyPrf u with
        | none => Except.ok true
        | some pstr =>
          match decode pstr with
          | none => Except.error VErr.malformedProof
          | some prf =>
            if prf.payload.aud = u.payload.iss then isValid verify n prf
            else Except.ok false
      else Except.ok false := rfl

theorem decodeChain_cons (fuel : Nat) (u : Ucan) (ch : List Ucan)
    (h : decodeChain fuel u = some ch) : ∃ t, ch = u :: t := by
  cases fuel with
  | zero => exact absurd h (by simp [decodeChain])
  | succ n =>
    rw [decodeChain_succ] at h
    cases hp : truthyPrf u with
    | none =>
      simp only [hp, Option.some.injEq] at h
      exact ⟨[], h.symm⟩
    | some pstr =>
      simp only [hp] at h
      cases hd : decode pstr with
      | none =>
        simp only [hd] at h
        exact absurd h (by simp)
      | some prf =>
        simp only [hd] at h
        cases hq : decodeChain n prf with
        | none =>
          simp only [hq] at h
          exact absurd h (by simp)
        | some ch0 =>
          simp only [hq, Option.map_some', Option.some.injEq] at h
          exact ⟨ch0, h.symm⟩

theorem isValid_chain_iff (verify : String → String → String → Bool)
    (fuel : Nat) (u : Ucan) :
    isValid verify fuel u = Except.ok true ↔
      ∃ ch, decodeChain fuel u = some ch ∧
        (∀ v ∈ ch, sigVerifies verify v = true) ∧ List.Chain' chainLink ch := by
  induction fuel generalizing u with
  | zero => simp [isValid, decodeChain]
  | succ n ih =>
    rw [isValid_succ]
    by_cases hs : sigVerifies verify u = true
    · rw [if_pos hs]
      cases hp : truthyPrf u with
      | none =>
        rw [decodeChain_succ]
        simp only [hp]
        constructor
        · intro h0
          refine ⟨[u], rfl, ?_, ?_⟩
          · intro v hv
            rw [List.mem_singleton] at hv
            subst hv
            exact hs
          · simp
        · intro h0
          trivial
      | some pstr =>
        rw [decodeChain_succ]
        simp only [hp]
        cases hd : decode pstr with
        | none =>
          simp only [hd]
          constructor
          · intro h0
            exact absurd h0 (by simp)
          · rintro ⟨ch, hch, hsg, hcn⟩
            exact absurd hch (by simp)
        | some prf =>
          simp only [hd]
          by_cases hl : prf.payload.aud = u.payload.iss
          · rw [if_pos hl, ih prf]
            constructor
            · rintro ⟨ch0, hch0, hsg, hcn⟩
              refine ⟨u :: ch0, ?_, ?_, ?_⟩
              · rw [hch0]
                rfl
              · intro v hv
                rcases List.mem_cons.mp hv with hv | hv
                · subst hv
                  exact hs
                · exact hsg v hv
              · obtain ⟨t, ht⟩ := decodeChain_cons n prf ch0 hch0
                subst ht
                exact List.chain'_cons.mpr ⟨hl, hcn⟩
            · rintro ⟨ch, hch, hsg, hcn⟩
              cases hq : decodeChain n prf with
              | none =>
                rw [hq] at hch
                exact absurd hch (by simp)
              | some ch0 =>
                rw [hq] at hch
                simp only [Option.map_some', Option.some.injEq] at hch
                subst hch
                refine ⟨ch0, rfl, ?_, hcn.tail⟩
                intro v hv
                exact hsg v (List.mem_cons_of_mem _ hv)
          · rw [if_neg hl]
            constructor
            · intro h0
              exact absurd h0 (by simp)
            · rintro ⟨ch, hch, hsg, hcn⟩
              cases hq : decodeChain n prf with
              | none =>
                rw [hq] at hch
                exact absurd hch (by simp)
              | some ch0 =>
                rw [hq] at hch
                simp only [Option.map_some', Option.some.injEq] at hch
                subst hch
                obtain ⟨t, ht⟩ := decodeChain_cons n prf ch0 hq
                subst ht
                exact absurd (List.chain'_cons.mp hcn).1 hl
    · rw [if_neg hs]
      constructor
      · intro h0
        exact absurd h0 (by simp)
      · rintro ⟨ch, hch, hsg, hcn⟩
        obtain ⟨t, ht⟩ := decodeChain_cons (n + 1) u ch hch
        subst ht
        exact absurd (hsg u (List.mem_cons_self u t)) hs

/-- C1: a decoded token validates exactly when its truthy proof chain fully
decodes and, at every level, the signature verifies under the given
verifier against that level's issuer and every proof is addressed to its
child's issuer; a verified token without a truthy proof validates
immediately. -/
theorem claim_C1_isValid_chain (verify : String → String → String → Bool)
    (fuel : Nat) (u : Ucan) :
    (isValid verify fuel u = Except.ok true ↔
      ∃ ch, decodeChain fuel u = some ch ∧
        (∀ v ∈ ch, sigVerifies verify v = true) ∧ List.Chain' chainLink ch) ∧
    (0 < fuel → sigVerifies verify u = true → truthyPrf u = none →
      isValid verify fuel u = Except.ok true) := by
  refine ⟨isValid_chain_iff verify fuel u, ?_⟩
  intro hf hs hp
  cases fuel with
  | zero => exact absurd hf (by omega)
  | succ n =>
    rw [isValid_succ, if_pos hs]
    simp [hp]

theorem claim_C1_isValid_chain_witness :
    isValid (fun d i s => true) 1 tok0 = Except.ok true :=
  (claim_C1_isValid_chain (fun d i s => true) 1 tok0).1.mpr
    ⟨[tok0], by decide, by decide, by simp⟩

theorem encode_safeStr (u : Ucan)
    (hsig : ∀ c ∈ (sigW u.signature).data, jsonSafeChar c = true) :
    SafeStr (encode u) := by
  intro c hc
  rw [encode, data_mk] at hc
  have hsd : (match u.signature with
      | some s => s.data
      | none => "null".data) = (sigW u.signature).data := by
    cases u.signature <;> rfl
  rw [hsd] at hc
  simp only [List.mem_append, List.mem_cons] at hc
  rcases hc with (h | h | h) | h | h
  · rw [encodeHeader, data_mk] at h
    exact urlEncodeL_safe _ c h
  · subst h
    decide
  · rw [encodePayload, data_mk] at h
    exact urlEncodeL_safe _ c h
  · subst h
    decide
  · exact hsig c h

theorem encode_ne_empty (u : Ucan) : encode u ≠ "" := by
  intro h
  have hmem : '.' ∈ (encode u).data := by
    rw [encode, data_mk]
    exact List.mem_append_right _ (List.mem_cons_self _ _)
  rw [h] at hmem
  exact absurd hmem (by decide)

/-- The payload of the base token of the C8 chain: no proof, audience equal
to the issuer so that every link of the deeper chains holds. -/
def payC8base : UcanPayload := { pay0 with aud := "did:key:zA" }

/-- The deep chain of C8: level 0 carries no proof; level k + 1 carries the
encoding of level k as its proof. -/
def chainTok : Nat → Ucan
  | 0 => { header := hdr0, payload := payC8base, signature := some "sg" }
  | k + 1 =>
    { header := hdr0,
      payload := { payC8base with prf := some (encode (chainTok k)) },
      signature := some "sg" }

theorem chainTok_sig (k : Nat) : (chainTok k).signature = some "sg" := by
  cases k <;> rfl

theorem chainTok_aud (k : Nat) : (chainTok k).payload.aud = "did:key:zA" := by
  cases k <;> rfl

theorem chainTok_iss (k : Nat) : (chainTok k).payload.iss = "did:key:zA" := by
  cases k <;> rfl

theorem chainTok_prf_succ (n : Nat) :
    (chainTok (n + 1)).payload.prf = some (encode (chainTok n)) := rfl

theorem sigVerifies_const_true (u : Ucan) :
    sigVerifies (fun d i s => true) u = true := rfl

theorem truthyPrf_chainTok_succ (n : Nat) :
    truthyPrf (chainTok (n + 1)) = some (encode (chainTok n)) := by
  show truthyStr (some (encode (chainTok n))) = some (encode (chainTok n))
  simp only [truthyStr, if_neg (encode_ne_empty (chainTok n))]

theorem chainTok_safe (k : Nat) :
    SafeHeader (chainTok k).header ∧ SafePayload (chainTok k).payload := by
  cases k with
  | zero => exact ⟨by decide, by decide⟩
  | succ n =>
    refine ⟨(by decide : SafeHeader hdr0), (by decide : SafeStr "did:key:zA"),
      (by decide : SafeStr "did:key:zA"), (by decide : SafeStr "APPEND"),
      (by decide : ∀ s ∈ ([] : List String), SafeStr s), ?_,
      (by decide : SafeRsc Resource.wildcard)⟩
    intro s hs0
    rw [Option.mem_def, chainTok_prf_succ] at hs0
    simp only [Option.some.injEq] at hs0
    subst hs0
    refine encode_safeStr (chainTok n) ?_
    rw [chainTok_sig]
    decide

theorem decode_encode_chainTok (k : Nat) :
    decode (encode (chainTok k)) = some (chainTok k) := by
  have h := decode_encode (chainTok k) (chainTok_safe k).1 (chainTok_safe k).2
    (by rw [chainTok_sig]; decide)
  rw [h]
  have he : ({ chainTok k with
      signature := some (sigW (chainTok k).signature) } : Ucan) = chainTok k := by
    cases k <;> rfl
  rw [he]

theorem isValid_chainTok (n : Nat) :
    ∀ f : Nat,
      (f ≤ n →
        isValid (fun d i s => true) f (chainTok n) = Except.error VErr.outOfFuel) ∧
      (n < f → isValid (fun d i s => true) f (chainTok n) = Except.ok true) := by
  induction n with
  | zero =>
    intro f
    constructor
    · intro hf
      have h0 : f = 0 := Nat.le_zero.mp hf
      subst h0
      rfl
    · intro hf
      cases f with
      | zero => exact absurd hf (by omega)
      | succ m =>
        rw [isValid_succ, if_pos (sigVerifies_const_true _)]
        rfl
  | succ n ihn =>
    intro f
    constructor
    · intro hf
      cases f with
      | zero => rfl
      | succ m =>
        rw [isValid_succ, if_pos (sigVerifies_const_true _)]
        simp only [truthyPrf_chainTok_succ, decode_encode_chainTok]
        rw [if_pos (by rw [chainTok_aud, chainTok_iss])]
        exact (ihn m).1 (by omega)
    · intro hf
      cases f with
      | zero => exact absurd hf (by omega)
      | succ m =>
        rw [isValid_succ, if_pos (sigVerifies_const_true _)]
        simp only [truthyPrf_chainTok_succ, decode_encode_chainTok]
        rw [if_pos (by rw [chainTok_aud, chainTok_iss])]
        exact (ihn m).2 (by omega)

/-- C8 (code bug): the source recursion of isValid carries no depth guard:
in the fuel-indexed model, for every recursion budget n the depth-n chain
exhausts the budget while one further step accepts it, so no fixed maximum
depth bounds the validation of attacker-supplied chains. -/
theorem claim_C8_unbounded_recursion (n : Nat) :
    isValid (fun d i s => true) n (chainTok n) = Except.error VErr.outOfFuel ∧
    isValid (fun d i s => true) (n + 1) (chainTok n) = Except.ok true :=
  ⟨(isValid_chainTok n n).1 (Nat.le_refl n),
    (isValid_chainTok n (n + 1)).2 (Nat.lt_succ_self n)⟩

theorem claim_C8_unbounded_recursion_witness :
    isValid (fun d i s => true) 1 (chainTok 1) = Except.error VErr.outOfFuel ∧
    isValid (fun d i s => true) 2 (chainTok 1) = Except.ok true :=
  claim_C8_unbounded_recursion 1

end Webnative
